import Mathlib

/-!
# Verification of the git-line-stage diff-to-patch engine

Shallow embedding of the core of `git-line-stage.py`: the unified-diff
parser (`parse_unified_diff`), the flattened numbered display
(`flat_file_lines_with_numbers`), the selective patcher
(`apply_selected_changes_to_old`), the single-file staging operation
(`apply_one_file`), and the selection-address parser
(`parse_number_tokens`).  Backend effects (git subprocess calls) are
modelled by passing their results (diff text, index content, trailing
newline flag) as explicit inputs and returning the would-be index write
as data.
-/

set_option autoImplicit false

namespace GitLineStage

/-- One parsed hunk, mirroring the Python dataclass `HunkRaw`:
the owning path, the raw header line, all retained diff lines (context
`' '`, addition `'+'`, removal `'-'`, each kept verbatim with its
marker), and the two `(start, length)` ranges from the header. -/
structure HunkRaw where
  path : String
  header : String
  all_lines : List String
  old_start : Nat
  old_lines : Nat
  new_start : Nat
  new_lines : Nat
deriving DecidableEq

/-- Python `ln[0]`, total: the first character of a line (callers only
use it on nonempty lines; the default is irrelevant there). -/
def lineSign (ln : String) : Char := ln.data.headD 'A'

/-- Python `ln[1:]`: the line with its marker stripped. -/
def lineText (ln : String) : String := String.mk ln.data.tail

/-- Drift failures raised (as `ValueError`) by the selective patcher;
each constructor carries the data interpolated into the Python message. -/
inductive DriftError where
  | outOfBounds (pre_start flen : Nat)
  | contextBeyondEnd (pos flen : Nat)
  | contextMismatch (pos : Nat) (expected got : String)
  | deletionBeyondEnd (pos flen : Nat)
  | deletionMismatch (pos : Nat) (expected got : String)
  | unexpectedMarker (sign : Char) (pos : Nat)
deriving DecidableEq

/-- The hunk order used by both the display and the patcher:
Python `sorted(hunks, key=lambda x: (x.old_start, x.new_start))`. -/
def hunkLE (a b : HunkRaw) : Bool :=
  a.old_start < b.old_start ||
    (a.old_start == b.old_start && a.new_start ≤ b.new_start)

/-- Stable insertion of a hunk after every already-placed hunk that is
`hunkLE`-below-or-equal (later arrivals go after equal keys, matching
Python's stable sort). -/
def insertHunk (x : HunkRaw) : List HunkRaw → List HunkRaw
  | [] => [x]
  | y :: ys => if hunkLE y x then y :: insertHunk x ys else x :: y :: ys

/-- Stable sort by `(old_start, new_start)`, as Python `sorted`. -/
def sortHunks (hunks : List HunkRaw) : List HunkRaw :=
  hunks.foldl (fun acc x => insertHunk x acc) []

/-- Loop body of the copy loop before each hunk, with the remaining
iteration count `pre_start - old_pos` made an explicit argument so the
recursion is structural.  Python:
`while old_pos < pre_start: if old_pos - 1 >= len(old_lines): break;
new.append(old_lines[old_pos - 1]); old_pos += 1`. -/
def copyUntilFuel (old : List String) : Nat → Nat → List String × Nat
  | 0, old_pos => ([], old_pos)
  | fuel + 1, old_pos =>
    if old.length ≤ old_pos - 1 then ([], old_pos)
    else
      let r := copyUntilFuel old fuel (old_pos + 1)
      (old.getD (old_pos - 1) "" :: r.1, r.2)

/-- The copy loop before each hunk; returns the copied lines and the
final cursor (`old_pos < pre_start` holds exactly while fuel remains). -/
def copyUntil (old : List String) (old_pos pre_start : Nat) :
    List String × Nat :=
  copyUntilFuel old (pre_start - old_pos) old_pos

/-- Loop body of the trailing copy loop, with an explicit iteration
bound.  Python: `while old_pos - 1 < len(old_lines):
new.append(old_lines[old_pos - 1]); old_pos += 1`. -/
def copyRestFuel (old : List String) : Nat → Nat → List String
  | 0, _ => []
  | fuel + 1, old_pos =>
    if old_pos - 1 < old.length then
      old.getD (old_pos - 1) "" :: copyRestFuel old fuel (old_pos + 1)
    else []

/-- The trailing copy loop (the bound `old.length + 1 - old_pos` is
enough fuel for the loop condition to be the sole exit). -/
def copyRest (old : List String) (old_pos : Nat) : List String :=
  copyRestFuel old (old.length + 1 - old_pos) old_pos

/-- The per-line body of the patcher loop (`for ln in h.all_lines`),
threading the output delta, the cursor `old_pos` and the change counter
`num_counter`.  `want` is the selection set (tested by membership only). -/
def applyLines (old : List String) (want : List Nat) :
    List String → Nat → Nat → Except DriftError (List String × Nat × Nat)
  | [], old_pos, num_counter => .ok ([], old_pos, num_counter)
  | ln :: rest, old_pos, num_counter =>
    if ln = "" then applyLines old want rest old_pos num_counter
    else
      let sign := lineSign ln
      let text := lineText ln
      if sign = ' ' then
        if old.length ≤ old_pos - 1 then
          .error (.contextBeyondEnd old_pos old.length)
        else if old.getD (old_pos - 1) "" ≠ text then
          .error (.contextMismatch old_pos text (old.getD (old_pos - 1) ""))
        else
          match applyLines old want rest (old_pos + 1) num_counter with
          | .error e => .error e
          | .ok (out, p, c) => .ok (old.getD (old_pos - 1) "" :: out, p, c)
      else if sign = '-' then
        if old.length ≤ old_pos - 1 then
          .error (.deletionBeyondEnd old_pos old.length)
        else if old.getD (old_pos - 1) "" ≠ text then
          .error (.deletionMismatch old_pos text (old.getD (old_pos - 1) ""))
        else if num_counter ∈ want then
          -- consume only (apply the deletion)
          applyLines old want rest (old_pos + 1) (num_counter + 1)
        else
          match applyLines old want rest (old_pos + 1) (num_counter + 1) with
          | .error e => .error e
          | .ok (out, p, c) => .ok (old.getD (old_pos - 1) "" :: out, p, c)
      else if sign = '+' then
        if num_counter ∈ want then
          match applyLines old want rest old_pos (num_counter + 1) with
          | .error e => .error e
          | .ok (out, p, c) => .ok (text :: out, p, c)
        else applyLines old want rest old_pos (num_counter + 1)
      else .error (.unexpectedMarker sign old_pos)

/-- One iteration of the patcher's hunk loop: the out-of-bounds check,
the pre-hunk copy, then the line loop. -/
def applyHunk (old : List String) (want : List Nat) (h : HunkRaw)
    (old_pos num_counter : Nat) :
    Except DriftError (List String × Nat × Nat) :=
  let pre_start := if h.old_start > 0 then h.old_start else 1
  if pre_start - 1 > old.length + 1 then
    .error (.outOfBounds pre_start old.length)
  else
    let cp := copyUntil old old_pos pre_start
    match applyLines old want h.all_lines cp.2 num_counter with
    | .error e => .error e
    | .ok (out, p, c) => .ok (cp.1 ++ out, p, c)

/-- The patcher's hunk loop over the (already sorted) hunk list. -/
def applyHunks (old : List String) (want : List Nat) :
    List HunkRaw → Nat → Nat → Except DriftError (List String × Nat × Nat)
  | [], old_pos, num_counter => .ok ([], old_pos, num_counter)
  | h :: hs, old_pos, num_counter =>
    match applyHunk old want h old_pos num_counter with
    | .error e => .error e
    | .ok (out1, p, c) =>
      match applyHunks old want hs p c with
      | .error e => .error e
      | .ok (out2, p2, c2) => .ok (out1 ++ out2, p2, c2)

/-- The Selective Patcher `apply_selected_changes_to_old`: reconstruct
new content from the original lines, the hunks and the selection set.
The cursor starts at 1 (1-origin) and the change counter at 1. -/
def apply_selected_changes_to_old (old_lines : List String)
    (hunks : List HunkRaw) (want_numbers : List Nat) :
    Except DriftError (List String) :=
  match applyHunks old_lines want_numbers (sortHunks hunks) 1 1 with
  | .error e => .error e
  | .ok (out, old_pos, _) => .ok (out ++ copyRest old_lines old_pos)

/-! ## Hunk Parser (`parse_unified_diff`) -/

/-- Python `str.splitlines()` restricted to `'\n'` separators (the diff
texts consumed here contain no other line breaks): every `'\n'` ends a
line, and a final segment after the last `'\n'` is kept only when
nonempty. -/
def splitLinesList : List Char → List (List Char)
  | [] => []
  | c :: t =>
    if c = '\n' then [] :: splitLinesList t
    else
      match splitLinesList t with
      | [] => [[c]]
      | l :: ls => (c :: l) :: ls

/-- Python `str.strip()` (both ends, whitespace). -/
def trimChars (cs : List Char) : List Char :=
  ((cs.dropWhile Char.isWhitespace).reverse.dropWhile
    Char.isWhitespace).reverse

/-- Match a literal prefix, returning the remainder. -/
def dropLit : List Char → List Char → Option (List Char)
  | [], cs => some cs
  | _ :: _, [] => none
  | p :: ps, c :: cs => if c = p then dropLit ps cs else none

/-- Python `raw.startswith(pre)`. -/
def startsWithL (pre cs : List Char) : Bool := (dropLit pre cs).isSome

/-- Regex `\d*` (greedy): the leading digit run and the remainder. -/
def spanDigits : List Char → List Char × List Char
  | [] => ([], [])
  | c :: rest =>
    if c.isDigit then
      let r := spanDigits rest
      (c :: r.1, r.2)
    else ([], c :: rest)

/-- Regex `,?`: drop one leading comma when present. -/
def skipComma : List Char → List Char
  | ',' :: t => t
  | cs => cs

/-- `HUNK_RE = re.compile(r'^@@ -(\d+),?(\d*) \+(\d+),?(\d*) @@')`,
unrolled into a deterministic matcher (the pattern admits no ambiguous
backtracking: every quantified piece is followed by a character it can
never match).  Returns the four captured groups. -/
def matchHunkCore (cs : List Char) :
    Option (List Char × List Char × List Char × List Char) :=
  match dropLit "@@ -".toList cs with
  | none => none
  | some r1 =>
    let s1 := spanDigits r1
    if s1.1 = [] then none
    else
      let s2 := spanDigits (skipComma s1.2)
      match dropLit " +".toList s2.2 with
      | none => none
      | some r5 =>
        let s3 := spanDigits r5
        if s3.1 = [] then none
        else
          let s4 := spanDigits (skipComma s3.2)
          match dropLit " @@".toList s4.2 with
          | none => none
          | some _ => some (s1.1, s2.1, s3.1, s4.1)

/-- `HUNK_RE.match` on a line. -/
def matchHunkHeader (s : String) :
    Option (List Char × List Char × List Char × List Char) :=
  matchHunkCore s.data

/-- Python `int()` on a digit string. -/
def digitsVal (cs : List Char) : Nat :=
  cs.foldl (fun a c => 10 * a + (c.toNat - '0'.toNat)) 0

/-- `re.search(r' and b/(.+) differ$', raw)`: find the leftmost
occurrence of the literal `" and b/"` and return what follows it. -/
def findAfterSub (pat : List Char) : List Char → Option (List Char)
  | [] => if pat = [] then some [] else none
  | c :: cs =>
    match dropLit pat (c :: cs) with
    | some r => some r
    | none => findAfterSub pat cs

/-- The captured group of `re.search(r' and b/(.+) differ$', raw)`:
after the leftmost `" and b/"` the rest must end in `" differ"` with a
nonempty greedy capture in between.  (A failed tail can never succeed at
a later start, so leftmost-first search agrees with this one-shot
check.) -/
def searchBinaryPath (raw : String) : Option String :=
  match findAfterSub " and b/".toList raw.data with
  | none => none
  | some rest =>
    if 7 < rest.length ∧ rest.drop (rest.length - 7) = " differ".toList
    then some (String.mk (rest.take (rest.length - 7)))
    else none

/-- Parser state: the two result dicts (insertion-ordered association
lists, as Python dicts) plus the loop-carried variables.  The pending
`cur_hunk` stands for the hunk Python has already appended to
`files_hunks[path]` and still mutates in place; it is flushed into the
dict as soon as it can no longer grow, which preserves every per-file
hunk order. -/
structure ParseState where
  files_hunks : List (String × List HunkRaw)
  binaries : List (String × Bool)
  cur_path : Option String
  cur_hunk : Option HunkRaw
  a_path : Option String
  b_path : Option String
deriving DecidableEq

/-- Python dict `setdefault(k, [])`. -/
def setdefaultHunks (m : List (String × List HunkRaw)) (k : String) :
    List (String × List HunkRaw) :=
  if m.any (fun e => e.1 == k) then m else m ++ [(k, [])]

/-- Python dict `setdefault(k, False)`. -/
def setdefaultBin (m : List (String × Bool)) (k : String) :
    List (String × Bool) :=
  if m.any (fun e => e.1 == k) then m else m ++ [(k, false)]

/-- Python dict assignment `binaries[k] = True`. -/
def setBinTrue (m : List (String × Bool)) (k : String) :
    List (String × Bool) :=
  if m.any (fun e => e.1 == k) then
    m.map (fun e => if e.1 == k then (e.1, true) else e)
  else m ++ [(k, true)]

/-- Python `files_hunks[k].append(h)` (the entry always exists when this
is reached; absent keys are created defensively). -/
def appendHunk (m : List (String × List HunkRaw)) (k : String)
    (h : HunkRaw) : List (String × List HunkRaw) :=
  if m.any (fun e => e.1 == k) then
    m.map (fun e => if e.1 == k then (e.1, e.2 ++ [h]) else e)
  else m ++ [(k, [h])]

/-- Python dict `m.get(k, dflt)`. -/
def lookupD {β : Type} (m : List (String × β)) (k : String) (dflt : β) :
    β :=
  match m.find? (fun e => e.1 == k) with
  | some e => e.2
  | none => dflt

/-- Python truthiness of an optional string (`if m and cur_path`). -/
def truthy : Option String → Bool
  | some s => s ≠ ""
  | none => false

/-- Commit the pending hunk into `files_hunks` (see `ParseState`). -/
def flushHunk (st : ParseState) : ParseState :=
  match st.cur_hunk with
  | none => st
  | some h =>
    { st with files_hunks := appendHunk st.files_hunks h.path h,
              cur_hunk := none }

/-- Fallthrough of the parse loop: a line inside the current hunk.
Python: `if cur_hunk is not None and raw:` skip the no-newline marker,
keep lines whose first character is `' '`, `'+'` or `'-'`. -/
def contentStep (st : ParseState) (raw : String) : ParseState :=
  match st.cur_hunk with
  | none => st
  | some h =>
    if raw = "" then st
    else if startsWithL "\\ No newline at end of file".toList raw.data
    then st
    else if lineSign raw = ' ' ∨ lineSign raw = '+' ∨ lineSign raw = '-'
    then { st with cur_hunk := some { h with all_lines := h.all_lines ++ [raw] } }
    else st

/-- One iteration of the parse loop of `parse_unified_diff`. -/
def parseStep (st : ParseState) (raw : String) : ParseState :=
  let cs := raw.data
  if startsWithL "diff --git ".toList cs then
    { flushHunk st with a_path := none, b_path := none,
                        cur_path := none, cur_hunk := none }
  else if startsWithL "--- ".toList cs then
    { st with a_path := some (String.mk (trimChars (cs.drop 4))) }
  else if startsWithL "+++ ".toList cs then
    let b := String.mk (trimChars (cs.drop 4))
    let p :=
      if startsWithL "b/".toList b.data then String.mk (b.data.drop 2)
      else if b = "/dev/null" ∧ truthy st.a_path ∧
          startsWithL "a/".toList ((st.a_path.getD "").data) then
        String.mk ((st.a_path.getD "").data.drop 2)
      else b
    { st with b_path := some b, cur_path := some p,
              files_hunks := setdefaultHunks st.files_hunks p,
              binaries := setdefaultBin st.binaries p }
  else if startsWithL "Binary files ".toList cs then
    match searchBinaryPath raw with
    | some p =>
      { st with cur_path := some p,
                binaries := setBinTrue st.binaries p,
                files_hunks := setdefaultHunks st.files_hunks p }
    | none => st
  else
    match matchHunkCore cs, st.cur_path with
    | some (g1, g2, g3, g4), some p =>
      if p ≠ "" then
        { flushHunk st with
            cur_hunk := some
              { path := p, header := raw, all_lines := [],
                old_start := if g1 = [] then 0 else digitsVal g1,
                old_lines := if g2 = [] then 1 else digitsVal g2,
                new_start := if g3 = [] then 0 else digitsVal g3,
                new_lines := if g4 = [] then 1 else digitsVal g4 } }
      else contentStep st raw
    | _, _ => contentStep st raw

/-- `parse_unified_diff`: fold the parse loop over the lines of the diff
text, then flush the last pending hunk; returns `(files_hunks,
binaries)`. -/
def parse_unified_diff (diff_text : String) :
    List (String × List HunkRaw) × List (String × Bool) :=
  let st := (splitLinesList diff_text.data).foldl
      (fun st cs => parseStep st (String.mk cs))
      ⟨[], [], none, none, none, none⟩
  let st := flushHunk st
  (st.files_hunks, st.binaries)

-- sanity checks against the repository's own tests
example :
    parse_unified_diff "--- a/f\n+++ b/f\n@@ -10 +20,8 @@\n x\n+y" =
      ([("f", [⟨"f", "@@ -10 +20,8 @@", [" x", "+y"], 10, 1, 20, 8⟩])],
       [("f", false)]) := by decide

example :
    parse_unified_diff "Binary files a/img.png and b/img.png differ" =
      ([("img.png", [])], [("img.png", true)]) := by decide

example :
    parse_unified_diff "--- a/f\n+++ /dev/null\n@@ -1,2 +0,0 @@\n-a\n-b" =
      ([("f", [⟨"f", "@@ -1,2 +0,0 @@", ["-a", "-b"], 1, 2, 0, 0⟩])],
       [("f", false)]) := by decide

/-! ## Change Addresser (`flat_file_lines_with_numbers`) -/

/-- Decimal digits of `n`, with the recursion depth made an explicit
fuel argument (any fuel `> n` is enough). -/
def natDigitsFuel : Nat → Nat → List Char
  | 0, _ => []
  | fuel + 1, n =>
    if n < 10 then [Nat.digitChar n]
    else natDigitsFuel fuel (n / 10) ++ [Nat.digitChar (n % 10)]

/-- Decimal digit characters of `n`. -/
def natDigits (n : Nat) : List Char := natDigitsFuel (n + 1) n

/-- Python `f"{n:04d}"`: the decimal form of `n`, left-padded with `'0'`
to at least four characters. -/
def pad4 (n : Nat) : String :=
  String.mk (List.replicate (4 - (natDigits n).length) '0' ++ natDigits n)

/-- The inner loop of `flat_file_lines_with_numbers` over one hunk's
lines, threading the per-file change number `n`.  `none` models the
`IndexError` Python raises on `ln[0]` when a stored line is empty
(impossible for parser output). -/
def flatLines (n : Nat) : List String → Option (List String × Nat)
  | [] => some ([], n)
  | ln :: rest =>
    if ln = "" then none
    else
      let sign := lineSign ln
      let text := lineText ln
      if sign = '+' ∨ sign = '-' then
        match flatLines (n + 1) rest with
        | none => none
        | some (out, n') =>
          some ((pad4 n ++ ": " ++ String.mk [sign] ++ " " ++ text) :: out,
            n')
      else if sign = ' ' then
        match flatLines n rest with
        | none => none
        | some (out, n') => some (("        " ++ text) :: out, n')
      else flatLines n rest

/-- The hunk loop of `flat_file_lines_with_numbers`: a `"        ..."`
separator before every hunk except the first, then the hunk's lines. -/
def flatGo (n : Nat) (first : Bool) : List HunkRaw → Option (List String)
  | [] => some []
  | h :: hs =>
    match flatLines n h.all_lines with
    | none => none
    | some (out, n') =>
      match flatGo n' false hs with
      | none => none
      | some rest =>
        some ((if first then [] else ["        ..."]) ++ out ++ rest)

/-- `flat_file_lines_with_numbers`: the flattened numbered view of a
file's hunks, numbering restarted at 1 on every call. -/
def flat_file_lines_with_numbers (hunks : List HunkRaw) :
    Option (List String) :=
  flatGo 1 true (sortHunks hunks)

/-! ## `apply_one_file` (backend effects passed in / returned as data) -/

/-- Insert into an ascending list, keeping it ascending. -/
def insertSortedNat (x : Nat) : List Nat → List Nat
  | [] => [x]
  | y :: ys => if y ≤ x then y :: insertSortedNat x ys else x :: y :: ys

/-- Python `sorted(set(l))`: the distinct elements in ascending order. -/
def sortedSet (l : List Nat) : List Nat :=
  l.foldl (fun acc x => if x ∈ acc then acc else insertSortedNat x acc) []

/-- Observable outcome of `apply_one_file`: the applied entries
`(file, count)`, the skipped entries `(file, number, reason)`, and the
content handed to `git update-index` (`none` = the index was not
touched). -/
structure ApplyResult where
  applied : List (String × Nat)
  skipped : List (String × Nat × String)
  indexWrite : Option String
deriving DecidableEq

/-- `new_text = "\n".join(new_lines)` plus the restored trailing
newline. -/
def renderContent (new_lines : List String) (had_trailing_nl : Bool) :
    String :=
  String.intercalate "\n" new_lines ++ (if had_trailing_nl then "\n" else "")

/-- `apply_one_file`, with the backend reads (diff text for the path,
index content and trailing-newline flag) as inputs and the index write
as data.  The success branch's re-listing of the file (display only) is
not part of the observable modelled here. -/
def apply_one_file (path : String) (want_numbers : List Nat)
    (diff_text : String) (old_lines : List String)
    (had_trailing_nl : Bool) : ApplyResult :=
  let want_set := sortedSet want_numbers
  let parsed := parse_unified_diff diff_text
  if lookupD parsed.2 path false then
    ⟨[], want_set.map (fun n => (path, n, "binary")), none⟩
  else
    let hunks := lookupD parsed.1 path []
    if hunks = [] then
      ⟨[], want_set.map (fun n => (path, n, "drift")), none⟩
    else
      match apply_selected_changes_to_old old_lines hunks want_set with
      | .error _ => ⟨[], want_set.map (fun n => (path, n, "drift")), none⟩
      | .ok new_lines =>
        ⟨[(path, want_set.length)], [],
          some (renderContent new_lines had_trailing_nl)⟩

/-! ## `parse_number_tokens` and the MCP `apply_changes` wrapper -/

/-- Python `token_str.split(",")` (empty segments kept). -/
def splitCommaList : List Char → List (List Char)
  | [] => [[]]
  | c :: t =>
    let r := splitCommaList t
    if c = ',' then [] :: r
    else
      match r with
      | [] => [[c]]
      | l :: ls => (c :: l) :: ls

/-- `re.fullmatch(r"\d{4}", t)`. -/
def isTok4 (cs : List Char) : Bool :=
  cs.length == 4 && cs.all Char.isDigit

/-- `re.fullmatch(r"(\d{4})-(\d{4})", t)`: the two captured groups. -/
def rangeTok (cs : List Char) : Option (List Char × List Char) :=
  match cs with
  | [a1, a2, a3, a4, h, b1, b2, b3, b4] =>
    if [a1, a2, a3, a4].all Char.isDigit && h == '-' &&
        [b1, b2, b3, b4].all Char.isDigit
    then some ([a1, a2, a3, a4], [b1, b2, b3, b4])
    else none
  | _ => none

/-- Python `range(a, b + 1)` as a list. -/
def rangeList (a b : Nat) : List Nat := (List.range (b + 1 - a)).map (a + ·)

/-- A (trimmed) token the address syntax accepts: empty (skipped), a
bare 4-digit integer, or a 4-digit range `AAAA-BBBB` with `A ≤ B`. -/
def validTok (t : String) : Bool :=
  t == "" || isTok4 t.data ||
    (match rangeTok t.data with
     | some gp => decide (digitsVal gp.1 ≤ digitsVal gp.2)
     | none => false)

/-- The numbers denoted by one (already trimmed) valid token. -/
def denoteTok (t : String) : List Nat :=
  if t = "" then []
  else if isTok4 t.data then [digitsVal t.data]
  else
    match rangeTok t.data with
    | some gp => rangeList (digitsVal gp.1) (digitsVal gp.2)
    | none => []

/-- The token loop of `parse_number_tokens`. -/
def parseTokensGo : List String → Except String (List Nat)
  | [] => .ok []
  | tok :: rest =>
    let t := String.mk (trimChars tok.data)
    if t = "" then parseTokensGo rest
    else if isTok4 t.data then
      match parseTokensGo rest with
      | .error e => .error e
      | .ok ns => .ok (digitsVal t.data :: ns)
    else
      match rangeTok t.data with
      | some gp =>
        let a := digitsVal gp.1
        let b := digitsVal gp.2
        if a > b then .error ("invalid range: " ++ t)
        else
          match parseTokensGo rest with
          | .error e => .error e
          | .ok ns => .ok (rangeList a b ++ ns)
      | none => .error ("invalid token: " ++ t)

/-- `parse_number_tokens`: the change-identifier address syntax. -/
def parse_number_tokens (token_str : String) : Except String (List Nat) :=
  parseTokensGo ((splitCommaList token_str.data).map String.mk)

/-- The MCP tool `apply_changes` / the CLI `apply` entry: parse the
address string first; only a successful parse reaches
`apply_one_file`. -/
def apply_changes (path numbers diff_text : String)
    (old_lines : List String) (had_trailing_nl : Bool) :
    Except String ApplyResult :=
  match parse_number_tokens numbers with
  | .error e => .error e
  | .ok nums => .ok (apply_one_file path nums diff_text old_lines had_trailing_nl)

/-! ## Change counting and full selection -/

/-- A line that receives a change identifier: nonempty with marker `'+'`
or `'-'`. -/
def isChangeLine (ln : String) : Bool :=
  !(ln == "") && (lineSign ln == '+' || lineSign ln == '-')

/-- The tagged added/removed lines of one hunk, in order. -/
def hunkTags (h : HunkRaw) : List String := h.all_lines.filter isChangeLine

/-- Number of added/removed lines in a line sequence. -/
def lineChanges (lines : List String) : Nat :=
  (lines.filter isChangeLine).length

/-- Total number of added/removed lines across a file's hunks. -/
def totalChanges (hunks : List HunkRaw) : Nat :=
  (hunks.map (fun h => (hunkTags h).length)).sum

/-- The complete selection set `{1, …, totalChanges}`. -/
def fullSelection (hunks : List HunkRaw) : List Nat :=
  (List.range (totalChanges hunks)).map (· + 1)

/-! ## Spec-side reference definitions (for the refinement claims) -/

/-- Reference for the post-diff content, following the spec's algorithm
with every change applied: context lines must match and are copied,
removed lines must match and are omitted, added lines are emitted; no
change counter is involved. -/
def fullLines (old : List String) :
    List String → Nat → Except DriftError (List String × Nat)
  | [], old_pos => .ok ([], old_pos)
  | ln :: rest, old_pos =>
    if ln = "" then fullLines old rest old_pos
    else
      let sign := lineSign ln
      let text := lineText ln
      if sign = ' ' then
        if old.length ≤ old_pos - 1 then
          .error (.contextBeyondEnd old_pos old.length)
        else if old.getD (old_pos - 1) "" ≠ text then
          .error (.contextMismatch old_pos text (old.getD (old_pos - 1) ""))
        else
          match fullLines old rest (old_pos + 1) with
          | .error e => .error e
          | .ok (out, p) => .ok (old.getD (old_pos - 1) "" :: out, p)
      else if sign = '-' then
        if old.length ≤ old_pos - 1 then
          .error (.deletionBeyondEnd old_pos old.length)
        else if old.getD (old_pos - 1) "" ≠ text then
          .error (.deletionMismatch old_pos text (old.getD (old_pos - 1) ""))
        else fullLines old rest (old_pos + 1)
      else if sign = '+' then
        match fullLines old rest old_pos with
        | .error e => .error e
        | .ok (out, p) => .ok (text :: out, p)
      else .error (.unexpectedMarker sign old_pos)

/-- Hunk step of the full-application reference. -/
def fullHunk (old : List String) (h : HunkRaw) (old_pos : Nat) :
    Except DriftError (List String × Nat) :=
  let pre_start := if h.old_start > 0 then h.old_start else 1
  if pre_start - 1 > old.length + 1 then
    .error (.outOfBounds pre_start old.length)
  else
    let cp := copyUntil old old_pos pre_start
    match fullLines old h.all_lines cp.2 with
    | .error e => .error e
    | .ok (out, p) => .ok (cp.1 ++ out, p)

/-- Hunk loop of the full-application reference. -/
def fullHunks (old : List String) :
    List HunkRaw → Nat → Except DriftError (List String × Nat)
  | [], old_pos => .ok ([], old_pos)
  | h :: hs, old_pos =>
    match fullHunk old h old_pos with
    | .error e => .error e
    | .ok (out1, p) =>
      match fullHunks old hs p with
      | .error e => .error e
      | .ok (out2, p2) => .ok (out1 ++ out2, p2)

/-- The post-diff line sequence of a diff, per the spec: the original
content with every hunk fully applied (or a drift error). -/
def fullApplySpec (old_lines : List String) (hunks : List HunkRaw) :
    Except DriftError (List String) :=
  match fullHunks old_lines (sortHunks hunks) 1 with
  | .error e => .error e
  | .ok (out, old_pos) => .ok (out ++ copyRest old_lines old_pos)

/-- The added/removed lines of a file's hunks in display/selection
traversal order (hunks sorted by `(old_start, new_start)`). -/
def changeTags (hunks : List HunkRaw) : List String :=
  ((sortHunks hunks).map hunkTags).flatten

/-- Pair consecutive identifiers (from `n`) with a list of tags. -/
def numberTags (n : Nat) : List String → List (Nat × String)
  | [] => []
  | t :: ts => (n, t) :: numberTags (n + 1) ts

/-- The Change Addresser's identifier → tagged-line mapping: the k-th
added/removed line of the traversal carries identifier k (from 1). -/
def addressedTags (hunks : List HunkRaw) : List (Nat × String) :=
  numberTags 1 (changeTags hunks)

/-- The rendered form of one addressed change, as displayed. -/
def fmtChange (e : Nat × String) : String :=
  pad4 e.1 ++ ": " ++ String.mk [lineSign e.2] ++ " " ++ lineText e.2

/-- Line loop of the patcher re-expressed against the explicit address
list: instead of a running counter, each added/removed line pops the
next `(identifier, line)` entry and tests that identifier against the
selection. -/
def applyLinesAddr (old : List String) (want : List Nat) :
    List String → Nat → List (Nat × String) →
    Except DriftError (List String × Nat × List (Nat × String))
  | [], old_pos, addr => .ok ([], old_pos, addr)
  | ln :: rest, old_pos, addr =>
    if ln = "" then applyLinesAddr old want rest old_pos addr
    else
      let sign := lineSign ln
      let text := lineText ln
      if sign = ' ' then
        if old.length ≤ old_pos - 1 then
          .error (.contextBeyondEnd old_pos old.length)
        else if old.getD (old_pos - 1) "" ≠ text then
          .error (.contextMismatch old_pos text (old.getD (old_pos - 1) ""))
        else
          match applyLinesAddr old want rest (old_pos + 1) addr with
          | .error e => .error e
          | .ok (out, p, a) => .ok (old.getD (old_pos - 1) "" :: out, p, a)
      else if sign = '-' then
        if old.length ≤ old_pos - 1 then
          .error (.deletionBeyondEnd old_pos old.length)
        else if old.getD (old_pos - 1) "" ≠ text then
          .error (.deletionMismatch old_pos text (old.getD (old_pos - 1) ""))
        else if (addr.headD (0, "")).1 ∈ want then
          applyLinesAddr old want rest (old_pos + 1) addr.tail
        else
          match applyLinesAddr old want rest (old_pos + 1) addr.tail with
          | .error e => .error e
          | .ok (out, p, a) => .ok (old.getD (old_pos - 1) "" :: out, p, a)
      else if sign = '+' then
        if (addr.headD (0, "")).1 ∈ want then
          match applyLinesAddr old want rest old_pos addr.tail with
          | .error e => .error e
          | .ok (out, p, a) => .ok (text :: out, p, a)
        else applyLinesAddr old want rest old_pos addr.tail
      else .error (.unexpectedMarker sign old_pos)

/-- Hunk step against the explicit address list. -/
def applyHunkAddr (old : List String) (want : List Nat) (h : HunkRaw)
    (old_pos : Nat) (addr : List (Nat × String)) :
    Except DriftError (List String × Nat × List (Nat × String)) :=
  let pre_start := if h.old_start > 0 then h.old_start else 1
  if pre_start - 1 > old.length + 1 then
    .error (.outOfBounds pre_start old.length)
  else
    let cp := copyUntil old old_pos pre_start
    match applyLinesAddr old want h.all_lines cp.2 addr with
    | .error e => .error e
    | .ok (out, p, a) => .ok (cp.1 ++ out, p, a)

/-- Hunk loop against the explicit address list. -/
def applyHunksAddr (old : List String) (want : List Nat) :
    List HunkRaw → Nat → List (Nat × String) →
    Except DriftError (List String × Nat × List (Nat × String))
  | [], old_pos, addr => .ok ([], old_pos, addr)
  | h :: hs, old_pos, addr =>
    match applyHunkAddr old want h old_pos addr with
    | .error e => .error e
    | .ok (out1, p, a) =>
      match applyHunksAddr old want hs p a with
      | .error e => .error e
      | .ok (out2, p2, a2) => .ok (out1 ++ out2, p2, a2)

/-- The Selective Patcher driven by the Change Addresser's explicit
identifier → tagged-line mapping instead of a running counter. -/
def applyAddressed (old_lines : List String) (hunks : List HunkRaw)
    (want : List Nat) : Except DriftError (List String) :=
  match applyHunksAddr old_lines want (sortHunks hunks) 1
      (addressedTags hunks) with
  | .error e => .error e
  | .ok (out, old_pos, _) => .ok (out ++ copyRest old_lines old_pos)

/-- Spec-side rendering of one hunk's lines: context lines indented and
unnumbered, added/removed lines prefixed with their zero-padded 4-digit
identifier, identifiers threaded across hunks. -/
def renderLines (n : Nat) : List String → List String × Nat
  | [] => ([], n)
  | ln :: rest =>
    if lineSign ln = '+' ∨ lineSign ln = '-' then
      let r := renderLines (n + 1) rest
      ((pad4 n ++ ": " ++ String.mk [lineSign ln] ++ " " ++ lineText ln)
          :: r.1, r.2)
    else if lineSign ln = ' ' then
      let r := renderLines n rest
      (("        " ++ lineText ln) :: r.1, r.2)
    else renderLines n rest

/-- Spec-side rendering of a sorted hunk sequence with a `"        ..."`
separator between every two consecutive hunks. -/
def renderHunksSep (n : Nat) : List HunkRaw → List String
  | [] => []
  | [h] => (renderLines n h.all_lines).1
  | h :: h2 :: hs =>
    let r := renderLines n h.all_lines
    r.1 ++ ["        ..."] ++ renderHunksSep r.2 (h2 :: hs)

/-- The flattened view as the spec describes it (with the separator
between every pair of consecutive hunks, adjacency notwithstanding). -/
def flatRef (hunks : List HunkRaw) : List String :=
  renderHunksSep 1 (sortHunks hunks)

/-! ## Dependency Analyzer (unstack), modelled from the spec -/

/-- Modelled from the spec: the outcome of one branch of the unstack
Dependency Analyzer (`do_unstack` is not under `src/`; only its tests
are).  A branch either fails the naming pre-check, conflicts at the
index of the first commit whose full-selection patch does not apply, or
commits with the final accumulated content. -/
inductive BranchOutcome where
  | namingError
  | conflict (failedIndex : Nat) (err : DriftError)
  | committed (finalContent : List String)
deriving DecidableEq

/-- Modelled from the spec: the APPLYING loop — each commit's own patch
is applied with the full selection via the Selective Patcher against the
branch's accumulated content; the first failure is terminal for the
branch. -/
def replayGo (content : List String) :
    List (List HunkRaw) → Nat → BranchOutcome
  | [], _ => .committed content
  | p :: rest, idx =>
    match apply_selected_changes_to_old content p (fullSelection p) with
    | .error e => .conflict idx e
    | .ok c => replayGo c rest (idx + 1)

/-- Modelled from the spec: one branch of unstack — the naming
pre-check, then the replay loop starting from the parent's snapshot. -/
def replayBranch (existing : List String) (name : String)
    (parentContent : List String) (patches : List (List HunkRaw)) :
    BranchOutcome :=
  if name ∈ existing then .namingError
  else replayGo parentContent patches 0

/-- Modelled from the spec: the branch refs present after evaluating one
branch — the new ref is created only on COMMITTED. -/
def branchRefsAfter (existing : List String) (name : String)
    (parentContent : List String) (patches : List (List HunkRaw)) :
    List String :=
  match replayBranch existing name parentContent patches with
  | .committed _ => existing ++ [name]
  | _ => existing

/-- Accumulated content before the i-th commit of a branch replay
(`none` once a patch has failed). -/
def replayAcc (content : List String) :
    List (List HunkRaw) → Option (List String)
  | [] => some content
  | p :: rest =>
    match apply_selected_changes_to_old content p (fullSelection p) with
    | .error _ => none
    | .ok c => replayAcc c rest

instance {ε α : Type} [DecidableEq ε] [DecidableEq α] :
    DecidableEq (Except ε α) := fun x y =>
  match x, y with
  | .ok a, .ok b =>
    if h : a = b then .isTrue (by simp [h]) else .isFalse (by simp [h])
  | .error a, .error b =>
    if h : a = b then .isTrue (by simp [h]) else .isFalse (by simp [h])
  | .ok _, .error _ => .isFalse (by simp)
  | .error _, .ok _ => .isFalse (by simp)

-- sanity check: the spec's "Deletion application" example
example :
    apply_selected_changes_to_old ["line 1", "line 2", "line 3"]
      [⟨"f", "@@ -1,3 +1,2 @@", [" line 1", "-line 2", " line 3"], 1, 3, 1, 2⟩]
      [1] = .ok ["line 1", "line 3"] := by decide

example :
    apply_selected_changes_to_old ["line 1", "line 2", "line 3"]
      [⟨"f", "@@ -1,3 +1,2 @@", [" line 1", "-line 2", " line 3"], 1, 3, 1, 2⟩]
      [] = .ok ["line 1", "line 2", "line 3"] := by decide

/-! ## Helper lemmas -/

theorem copyRestFuel_eq_drop (old : List String) :
    ∀ (fuel old_pos : Nat), 1 ≤ old_pos →
      old.length + 1 - old_pos ≤ fuel →
      copyRestFuel old fuel old_pos = old.drop (old_pos - 1) := by
  intro fuel
  induction fuel with
  | zero =>
    intro old_pos h1 hf
    have : old.length ≤ old_pos - 1 := by omega
    simp [copyRestFuel, List.drop_eq_nil_of_le this]
  | succ fuel ih =>
    intro old_pos h1 hf
    by_cases hlt : old_pos - 1 < old.length
    · have hget : old.getD (old_pos - 1) "" = old[old_pos - 1] :=
        List.getD_eq_getElem old "" hlt
      have hdrop : old.drop (old_pos - 1) =
          old[old_pos - 1] :: old.drop (old_pos - 1 + 1) :=
        List.drop_eq_getElem_cons hlt
      have harg : old_pos - 1 + 1 = old_pos + 1 - 1 := by omega
      simp only [copyRestFuel, if_pos hlt]
      rw [ih (old_pos + 1) (by omega) (by omega), hget, hdrop, harg]
    · simp only [copyRestFuel, if_neg hlt]
      rw [List.drop_eq_nil_of_le (by omega)]

theorem copyRest_eq_drop (old : List String) (old_pos : Nat)
    (h1 : 1 ≤ old_pos) : copyRest old old_pos = old.drop (old_pos - 1) :=
  copyRestFuel_eq_drop old _ old_pos h1 (Nat.le_refl _)

theorem copyUntilFuel_spec (old : List String) :
    ∀ (fuel old_pos : Nat), 1 ≤ old_pos →
      1 ≤ (copyUntilFuel old fuel old_pos).2 ∧
      (copyUntilFuel old fuel old_pos).1 ++
          old.drop ((copyUntilFuel old fuel old_pos).2 - 1) =
        old.drop (old_pos - 1) := by
  intro fuel
  induction fuel with
  | zero => intro old_pos h1; simp [copyUntilFuel, h1]
  | succ fuel ih =>
    intro old_pos h1
    by_cases hle : old.length ≤ old_pos - 1
    · simp [copyUntilFuel, hle, h1]
    · have hlt : old_pos - 1 < old.length := by omega
      have hget : old.getD (old_pos - 1) "" = old[old_pos - 1] :=
        List.getD_eq_getElem old "" hlt
      have hdrop : old.drop (old_pos - 1) =
          old[old_pos - 1] :: old.drop (old_pos - 1 + 1) :=
        List.drop_eq_getElem_cons hlt
      have harg : old_pos - 1 + 1 = old_pos + 1 - 1 := by omega
      obtain ⟨ih1, ih2⟩ := ih (old_pos + 1) (by omega)
      constructor
      · simpa [copyUntilFuel, hle] using ih1
      · simp only [copyUntilFuel, if_neg hle]
        rw [List.cons_append, hget, hdrop, harg, ih2]

theorem copyUntil_spec (old : List String) (old_pos pre_start : Nat)
    (h1 : 1 ≤ old_pos) :
    1 ≤ (copyUntil old old_pos pre_start).2 ∧
    (copyUntil old old_pos pre_start).1 ++
        old.drop ((copyUntil old old_pos pre_start).2 - 1) =
      old.drop (old_pos - 1) :=
  copyUntilFuel_spec old _ old_pos h1

theorem insertHunk_perm (x : HunkRaw) (l : List HunkRaw) :
    List.Perm (insertHunk x l) (l ++ [x]) := by
  induction l with
  | nil => simp [insertHunk]
  | cons y ys ih =>
    by_cases hle : hunkLE y x
    · simpa [insertHunk, hle] using ih.cons y
    · simp only [insertHunk, if_neg hle]
      exact ((y :: ys).perm_append_singleton x).symm

theorem sortHunks_foldl_perm (l : List HunkRaw) :
    ∀ acc, List.Perm (l.foldl (fun acc x => insertHunk x acc) acc)
      (acc ++ l) := by
  induction l with
  | nil => intro acc; simp
  | cons h t ih =>
    intro acc
    have h1 : List.Perm ((h :: t).foldl (fun acc x => insertHunk x acc) acc)
        ((insertHunk h acc) ++ t) := by simpa using ih (insertHunk h acc)
    have h2 : List.Perm ((insertHunk h acc) ++ t) ((acc ++ [h]) ++ t) :=
      (insertHunk_perm h acc).append_right t
    have h3 : (acc ++ [h]) ++ t = acc ++ h :: t := by simp
    exact (h1.trans h2).trans (h3 ▸ List.Perm.refl _)

theorem sortHunks_perm (l : List HunkRaw) :
    List.Perm (sortHunks l) l := by
  simpa [sortHunks] using sortHunks_foldl_perm l []

theorem mem_sortHunks {h : HunkRaw} {l : List HunkRaw} (hm : h ∈ l) :
    h ∈ sortHunks l := ((sortHunks_perm l).mem_iff).2 hm

theorem totalChanges_sortHunks (hunks : List HunkRaw) :
    totalChanges (sortHunks hunks) = totalChanges hunks :=
  List.Perm.sum_eq ((sortHunks_perm hunks).map _)

theorem applyLines_empty_spec (old : List String) :
    ∀ (lines : List String) (p c : Nat) (out : List String) (p' c' : Nat),
      1 ≤ p →
      applyLines old [] lines p c = .ok (out, p', c') →
      1 ≤ p' ∧ out ++ old.drop (p' - 1) = old.drop (p - 1) := by
  intro lines
  induction lines with
  | nil =>
    intro p c out p' c' hp h
    simp only [applyLines, Except.ok.injEq, Prod.mk.injEq] at h
    obtain ⟨h1, h2, h3⟩ := h
    subst h1; subst h2
    simp [hp]
  | cons ln rest ih =>
    intro p c out p' c' hp h
    by_cases hempty : ln = ""
    · rw [applyLines, if_pos hempty] at h
      exact ih p c out p' c' hp h
    · rw [applyLines, if_neg hempty] at h
      by_cases hsp : lineSign ln = ' '
      · rw [if_pos hsp] at h
        by_cases hb : old.length ≤ p - 1
        · rw [if_pos hb] at h; exact absurd h (by simp)
        · rw [if_neg hb] at h
          by_cases hm : old.getD (p - 1) "" ≠ lineText ln
          · rw [if_pos hm] at h; exact absurd h (by simp)
          · rw [if_neg hm] at h
            cases hrec : applyLines old [] rest (p + 1) c with
            | error e => rw [hrec] at h; exact absurd h (by simp)
            | ok r =>
              obtain ⟨out1, p1, c1⟩ := r
              rw [hrec] at h
              simp only [Except.ok.injEq, Prod.mk.injEq] at h
              obtain ⟨h1, h2, h3⟩ := h
              rw [← h1, ← h2]
              obtain ⟨ih1, ih2⟩ := ih (p + 1) c out1 p1 c1 (by omega) hrec
              refine ⟨ih1, ?_⟩
              have hlt : p - 1 < old.length := by omega
              rw [List.cons_append, ih2, List.getD_eq_getElem old "" hlt]
              have harg : p + 1 - 1 = p - 1 + 1 := by omega
              rw [harg]
              exact (List.drop_eq_getElem_cons hlt).symm
      · rw [if_neg hsp] at h
        by_cases hsm : lineSign ln = '-'
        · rw [if_pos hsm] at h
          by_cases hb : old.length ≤ p - 1
          · rw [if_pos hb] at h; exact absurd h (by simp)
          · rw [if_neg hb] at h
            by_cases hm : old.getD (p - 1) "" ≠ lineText ln
            · rw [if_pos hm] at h; exact absurd h (by simp)
            · rw [if_neg hm] at h
              simp only [List.not_mem_nil, if_false] at h
              cases hrec : applyLines old [] rest (p + 1) (c + 1) with
              | error e => rw [hrec] at h; exact absurd h (by simp)
              | ok r =>
                obtain ⟨out1, p1, c1⟩ := r
                rw [hrec] at h
                simp only [Except.ok.injEq, Prod.mk.injEq] at h
                obtain ⟨h1, h2, h3⟩ := h
                rw [← h1, ← h2]
                obtain ⟨ih1, ih2⟩ := ih (p + 1) (c + 1) out1 p1 c1 (by omega)
                  hrec
                refine ⟨ih1, ?_⟩
                have hlt : p - 1 < old.length := by omega
                rw [List.cons_append, ih2, List.getD_eq_getElem old "" hlt]
                have harg : p + 1 - 1 = p - 1 + 1 := by omega
                rw [harg]
                exact (List.drop_eq_getElem_cons hlt).symm
        · rw [if_neg hsm] at h
          by_cases hsa : lineSign ln = '+'
          · rw [if_pos hsa] at h
            simp only [List.not_mem_nil, if_false] at h
            exact ih p (c + 1) out p' c' hp h
          · rw [if_neg hsa] at h; exact absurd h (by simp)

theorem applyHunk_empty_spec (old : List String) (h : HunkRaw)
    (p c : Nat) (out : List String) (p' c' : Nat) (hp : 1 ≤ p)
    (hh : applyHunk old [] h p c = .ok (out, p', c')) :
    1 ≤ p' ∧ out ++ old.drop (p' - 1) = old.drop (p - 1) := by
  by_cases hb : (if h.old_start > 0 then h.old_start else 1) - 1 >
      old.length + 1
  · simp [applyHunk, if_pos hb] at hh
  · obtain ⟨hcp1, hcp2⟩ := copyUntil_spec old p
      (if h.old_start > 0 then h.old_start else 1) hp
    cases hrec : applyLines old [] h.all_lines
        (copyUntil old p (if h.old_start > 0 then h.old_start else 1)).2
        c with
    | error e => simp [applyHunk, if_neg hb, hrec] at hh
    | ok r =>
      obtain ⟨out1, p1, c1⟩ := r
      simp only [applyHunk, if_neg hb, hrec, Except.ok.injEq,
        Prod.mk.injEq] at hh
      obtain ⟨h1, h2, h3⟩ := hh
      rw [← h1, ← h2]
      obtain ⟨ih1, ih2⟩ := applyLines_empty_spec old h.all_lines _ c out1
        p1 c1 hcp1 hrec
      exact ⟨ih1, by rw [List.append_assoc, ih2, hcp2]⟩

theorem applyHunks_empty_spec (old : List String) :
    ∀ (hs : List HunkRaw) (p c : Nat) (out : List String) (p' c' : Nat),
      1 ≤ p →
      applyHunks old [] hs p c = .ok (out, p', c') →
      1 ≤ p' ∧ out ++ old.drop (p' - 1) = old.drop (p - 1) := by
  intro hs
  induction hs with
  | nil =>
    intro p c out p' c' hp h
    simp only [applyHunks, Except.ok.injEq, Prod.mk.injEq] at h
    obtain ⟨h1, h2, h3⟩ := h
    subst h1; subst h2
    simp [hp]
  | cons hk hs ih =>
    intro p c out p' c' hp h
    cases h1 : applyHunk old [] hk p c with
    | error e => simp [applyHunks, h1] at h
    | ok r1 =>
      obtain ⟨out1, p1, c1⟩ := r1
      cases h2 : applyHunks old [] hs p1 c1 with
      | error e => simp [applyHunks, h1, h2] at h
      | ok r2 =>
        obtain ⟨out2, p2, c2⟩ := r2
        simp only [applyHunks, h1, h2, Except.ok.injEq, Prod.mk.injEq] at h
        obtain ⟨ha, hb, hc⟩ := h
        rw [← ha, ← hb]
        obtain ⟨g1, g2⟩ := applyHunk_empty_spec old hk p c out1 p1 c1 hp h1
        obtain ⟨g3, g4⟩ := ih p1 c1 out2 p2 c2 g1 h2
        exact ⟨g3, by rw [List.append_assoc, g4, g2]⟩

theorem apply_selected_empty (old : List String) (hunks : List HunkRaw)
    (res : List String)
    (h : apply_selected_changes_to_old old hunks [] = .ok res) :
    res = old := by
  rw [apply_selected_changes_to_old] at h
  cases h1 : applyHunks old [] (sortHunks hunks) 1 1 with
  | error e => rw [h1] at h; exact absurd h (by simp)
  | ok r =>
    obtain ⟨out, p, c⟩ := r
    rw [h1] at h
    simp only [Except.ok.injEq] at h
    subst h
    obtain ⟨g1, g2⟩ := applyHunks_empty_spec old (sortHunks hunks) 1 1 out
      p c (by omega) h1
    rw [copyRest_eq_drop old p g1, g2]
    simp

theorem isChangeLine_of_sign {ln : String} (hne : ln ≠ "")
    (hs : lineSign ln = '+' ∨ lineSign ln = '-') :
    isChangeLine ln = true := by
  rcases hs with h | h <;> simp [isChangeLine, hne, h]

theorem isChangeLine_empty : isChangeLine "" = false := by
  simp [isChangeLine]

theorem isChangeLine_other {ln : String} (h1 : lineSign ln ≠ '+')
    (h2 : lineSign ln ≠ '-') : isChangeLine ln = false := by
  simp [isChangeLine, h1, h2]

theorem lineChanges_cons_change {ln : String} {rest : List String}
    (h : isChangeLine ln = true) :
    lineChanges (ln :: rest) = lineChanges rest + 1 := by
  simp [lineChanges, List.filter_cons, h]

theorem lineChanges_cons_other {ln : String} {rest : List String}
    (h : isChangeLine ln = false) :
    lineChanges (ln :: rest) = lineChanges rest := by
  simp [lineChanges, List.filter_cons, h]

theorem applyLines_full_equiv (old : List String) (want : List Nat) :
    ∀ (lines : List String) (p c : Nat),
      (∀ k, c ≤ k → k < c + lineChanges lines → k ∈ want) →
      applyLines old want lines p c =
        (match fullLines old lines p with
         | .error e => .error e
         | .ok (out, p') => .ok (out, p', c + lineChanges lines)) := by
  intro lines
  induction lines with
  | nil => intro p c hw; simp [applyLines, fullLines, lineChanges]
  | cons ln rest ih =>
    intro p c hw
    by_cases hempty : ln = ""
    · rw [applyLines, if_pos hempty, fullLines, if_pos hempty]
      rw [lineChanges_cons_other (hempty ▸ isChangeLine_empty)] at hw ⊢
      exact ih p c hw
    · rw [applyLines, if_neg hempty, fullLines, if_neg hempty]
      by_cases hsp : lineSign ln = ' '
      · rw [if_pos hsp, if_pos hsp]
        have hch : isChangeLine ln = false :=
          isChangeLine_other (by rw [hsp]; decide) (by rw [hsp]; decide)
        rw [lineChanges_cons_other hch] at hw ⊢
        by_cases hb : old.length ≤ p - 1
        · rw [if_pos hb, if_pos hb]
        · rw [if_neg hb, if_neg hb]
          by_cases hm : old.getD (p - 1) "" ≠ lineText ln
          · rw [if_pos hm, if_pos hm]
          · rw [if_neg hm, if_neg hm]
            rw [ih (p + 1) c hw]
            cases hfl : fullLines old rest (p + 1) with
            | error e => simp
            | ok r => obtain ⟨out1, p1⟩ := r; simp
      · rw [if_neg hsp, if_neg hsp]
        by_cases hsm : lineSign ln = '-'
        · rw [if_pos hsm, if_pos hsm]
          have hch : isChangeLine ln = true :=
            isChangeLine_of_sign hempty (Or.inr hsm)
          rw [lineChanges_cons_change hch] at hw ⊢
          by_cases hb : old.length ≤ p - 1
          · rw [if_pos hb, if_pos hb]
          · rw [if_neg hb, if_neg hb]
            by_cases hm : old.getD (p - 1) "" ≠ lineText ln
            · rw [if_pos hm, if_pos hm]
            · rw [if_neg hm, if_neg hm]
              have hc : c ∈ want := hw c (Nat.le_refl c) (by omega)
              rw [if_pos hc]
              have hw' : ∀ k, c + 1 ≤ k → k < c + 1 + lineChanges rest →
                  k ∈ want := fun k h1 h2 => hw k (by omega) (by omega)
              rw [ih (p + 1) (c + 1) hw']
              cases hfl : fullLines old rest (p + 1) with
              | error e => simp
              | ok r =>
                obtain ⟨out1, p1⟩ := r
                simp only [Except.ok.injEq, Prod.mk.injEq]
                exact ⟨trivial, trivial, by omega⟩
        · rw [if_neg hsm, if_neg hsm]
          by_cases hsa : lineSign ln = '+'
          · rw [if_pos hsa, if_pos hsa]
            have hch : isChangeLine ln = true :=
              isChangeLine_of_sign hempty (Or.inl hsa)
            rw [lineChanges_cons_change hch] at hw ⊢
            have hc : c ∈ want := hw c (Nat.le_refl c) (by omega)
            rw [if_pos hc]
            have hw' : ∀ k, c + 1 ≤ k → k < c + 1 + lineChanges rest →
                k ∈ want := fun k h1 h2 => hw k (by omega) (by omega)
            rw [ih p (c + 1) hw']
            cases hfl : fullLines old rest p with
            | error e => simp
            | ok r =>
              obtain ⟨out1, p1⟩ := r
              simp only [Except.ok.injEq, Prod.mk.injEq]
              exact ⟨trivial, trivial, by omega⟩
          · rw [if_neg hsa, if_neg hsa]

theorem applyHunk_full_equiv (old : List String) (want : List Nat)
    (h : HunkRaw) (p c : Nat)
    (hw : ∀ k, c ≤ k → k < c + lineChanges h.all_lines → k ∈ want) :
    applyHunk old want h p c =
      (match fullHunk old h p with
       | .error e => .error e
       | .ok (out, p') => .ok (out, p', c + lineChanges h.all_lines)) := by
  simp only [applyHunk, fullHunk]
  by_cases hb : (if h.old_start > 0 then h.old_start else 1) - 1 >
      old.length + 1
  · rw [if_pos hb, if_pos hb]
  · rw [if_neg hb, if_neg hb]
    rw [applyLines_full_equiv old want h.all_lines
      (copyUntil old p (if h.old_start > 0 then h.old_start else 1)).2 c hw]
    cases hfl : fullLines old h.all_lines
        (copyUntil old p (if h.old_start > 0 then h.old_start else 1)).2 with
    | error e => simp
    | ok r => obtain ⟨out1, p1⟩ := r; simp

theorem totalChanges_cons (h : HunkRaw) (hs : List HunkRaw) :
    totalChanges (h :: hs) = lineChanges h.all_lines + totalChanges hs := by
  simp [totalChanges, hunkTags, lineChanges]

theorem applyHunks_full_equiv (old : List String) (want : List Nat) :
    ∀ (hs : List HunkRaw) (p c : Nat),
      (∀ k, c ≤ k → k < c + totalChanges hs → k ∈ want) →
      applyHunks old want hs p c =
        (match fullHunks old hs p with
         | .error e => .error e
         | .ok (out, p') => .ok (out, p', c + totalChanges hs)) := by
  intro hs
  induction hs with
  | nil => intro p c hw; simp [applyHunks, fullHunks, totalChanges]
  | cons hk hs ih =>
    intro p c hw
    rw [totalChanges_cons] at hw
    have hw1 : ∀ k, c ≤ k → k < c + lineChanges hk.all_lines → k ∈ want :=
      fun k h1 h2 => hw k h1 (by omega)
    rw [applyHunks, fullHunks,
      applyHunk_full_equiv old want hk p c hw1]
    cases hfh : fullHunk old hk p with
    | error e => simp
    | ok r =>
      obtain ⟨out1, p1⟩ := r
      have hw2 : ∀ k, c + lineChanges hk.all_lines ≤ k →
          k < c + lineChanges hk.all_lines + totalChanges hs → k ∈ want :=
        fun k h1 h2 => hw k (by omega) (by omega)
      simp only
      rw [ih p1 (c + lineChanges hk.all_lines) hw2]
      cases hfhs : fullHunks old hs p1 with
      | error e => simp
      | ok r2 =>
        obtain ⟨out2, p2⟩ := r2
        simp only [Except.ok.injEq, Prod.mk.injEq, totalChanges_cons]
        exact ⟨trivial, trivial, by omega⟩

theorem mem_fullSelection {k : Nat} {hunks : List HunkRaw} :
    k ∈ fullSelection hunks ↔ 1 ≤ k ∧ k ≤ totalChanges hunks := by
  simp only [fullSelection, List.mem_map, List.mem_range]
  constructor
  · rintro ⟨i, hi, rfl⟩; omega
  · rintro ⟨h1, h2⟩; exact ⟨k - 1, by omega, by omega⟩

theorem apply_selected_full (old : List String) (hunks : List HunkRaw) :
    apply_selected_changes_to_old old hunks (fullSelection hunks) =
      fullApplySpec old hunks := by
  rw [apply_selected_changes_to_old, fullApplySpec]
  have hw : ∀ k, 1 ≤ k → k < 1 + totalChanges (sortHunks hunks) →
      k ∈ fullSelection hunks := by
    intro k h1 h2
    rw [totalChanges_sortHunks] at h2
    exact mem_fullSelection.2 ⟨h1, by omega⟩
  rw [applyHunks_full_equiv old (fullSelection hunks) (sortHunks hunks) 1 1
    hw]
  cases hfh : fullHunks old (sortHunks hunks) 1 with
  | error e => simp
  | ok r => obtain ⟨out, p⟩ := r; simp

theorem applyLines_mem_ext (old : List String) (w1 w2 : List Nat) :
    ∀ (lines : List String) (p c : Nat),
      (∀ k, c ≤ k → k < c + lineChanges lines → (k ∈ w1 ↔ k ∈ w2)) →
      applyLines old w1 lines p c = applyLines old w2 lines p c := by
  intro lines
  induction lines with
  | nil => intro p c hw; rfl
  | cons ln rest ih =>
    intro p c hw
    by_cases hempty : ln = ""
    · rw [applyLines, if_pos hempty, applyLines, if_pos hempty]
      rw [lineChanges_cons_other (hempty ▸ isChangeLine_empty)] at hw
      exact ih p c hw
    · rw [applyLines, if_neg hempty, applyLines, if_neg hempty]
      by_cases hsp : lineSign ln = ' '
      · rw [if_pos hsp, if_pos hsp]
        have hch : isChangeLine ln = false :=
          isChangeLine_other (by rw [hsp]; decide) (by rw [hsp]; decide)
        rw [lineChanges_cons_other hch] at hw
        by_cases hb : old.length ≤ p - 1
        · rw [if_pos hb, if_pos hb]
        · rw [if_neg hb, if_neg hb]
          by_cases hm : old.getD (p - 1) "" ≠ lineText ln
          · rw [if_pos hm, if_pos hm]
          · rw [if_neg hm, if_neg hm, ih (p + 1) c hw]
      · rw [if_neg hsp, if_neg hsp]
        by_cases hsm : lineSign ln = '-'
        · rw [if_pos hsm, if_pos hsm]
          have hch : isChangeLine ln = true :=
            isChangeLine_of_sign hempty (Or.inr hsm)
          rw [lineChanges_cons_change hch] at hw
          have hw' : ∀ k, c + 1 ≤ k → k < c + 1 + lineChanges rest →
              (k ∈ w1 ↔ k ∈ w2) :=
            fun k h1 h2 => hw k (by omega) (by omega)
          have hcc : (c ∈ w1) ↔ (c ∈ w2) := hw c (Nat.le_refl c) (by omega)
          by_cases hb : old.length ≤ p - 1
          · rw [if_pos hb, if_pos hb]
          · rw [if_neg hb, if_neg hb]
            by_cases hm : old.getD (p - 1) "" ≠ lineText ln
            · rw [if_pos hm, if_pos hm]
            · rw [if_neg hm, if_neg hm]
              by_cases hc1 : c ∈ w1
              · rw [if_pos hc1, if_pos (hcc.1 hc1)]
                exact ih (p + 1) (c + 1) hw'
              · rw [if_neg hc1, if_neg (fun hc2 => hc1 (hcc.2 hc2))]
                rw [ih (p + 1) (c + 1) hw']
        · rw [if_neg hsm, if_neg hsm]
          by_cases hsa : lineSign ln = '+'
          · rw [if_pos hsa, if_pos hsa]
            have hch : isChangeLine ln = true :=
              isChangeLine_of_sign hempty (Or.inl hsa)
            rw [lineChanges_cons_change hch] at hw
            have hw' : ∀ k, c + 1 ≤ k → k < c + 1 + lineChanges rest →
                (k ∈ w1 ↔ k ∈ w2) :=
              fun k h1 h2 => hw k (by omega) (by omega)
            have hcc : (c ∈ w1) ↔ (c ∈ w2) := hw c (Nat.le_refl c) (by omega)
            by_cases hc1 : c ∈ w1
            · rw [if_pos hc1, if_pos (hcc.1 hc1)]
              rw [ih p (c + 1) hw']
            · rw [if_neg hc1, if_neg (fun hc2 => hc1 (hcc.2 hc2))]
              exact ih p (c + 1) hw'
          · rw [if_neg hsa, if_neg hsa]

theorem applyHunk_mem_ext (old : List String) (w1 w2 : List Nat)
    (h : HunkRaw) (p c : Nat)
    (hw : ∀ k, c ≤ k → k < c + lineChanges h.all_lines → (k ∈ w1 ↔ k ∈ w2)) :
    applyHunk old w1 h p c = applyHunk old w2 h p c := by
  simp only [applyHunk]
  rw [applyLines_mem_ext old w1 w2 h.all_lines
    (copyUntil old p (if h.old_start > 0 then h.old_start else 1)).2 c hw]

theorem applyLines_counter (old : List String) (want : List Nat) :
    ∀ (lines : List String) (p c : Nat) (out : List String) (p' c' : Nat),
      applyLines old want lines p c = .ok (out, p', c') →
      c' = c + lineChanges lines := by
  intro lines
  induction lines with
  | nil =>
    intro p c out p' c' h
    simp only [applyLines, Except.ok.injEq, Prod.mk.injEq] at h
    simp [lineChanges, ← h.2.2]
  | cons ln rest ih =>
    intro p c out p' c' h
    by_cases hempty : ln = ""
    · rw [applyLines, if_pos hempty] at h
      rw [lineChanges_cons_other (hempty ▸ isChangeLine_empty)]
      exact ih p c out p' c' h
    · rw [applyLines, if_neg hempty] at h
      by_cases hsp : lineSign ln = ' '
      · rw [if_pos hsp] at h
        have hch : isChangeLine ln = false :=
          isChangeLine_other (by rw [hsp]; decide) (by rw [hsp]; decide)
        rw [lineChanges_cons_other hch]
        by_cases hb : old.length ≤ p - 1
        · rw [if_pos hb] at h; exact absurd h (by simp)
        · rw [if_neg hb] at h
          by_cases hm : old.getD (p - 1) "" ≠ lineText ln
          · rw [if_pos hm] at h; exact absurd h (by simp)
          · rw [if_neg hm] at h
            cases hrec : applyLines old want rest (p + 1) c with
            | error e => rw [hrec] at h; exact absurd h (by simp)
            | ok r =>
              obtain ⟨out1, p1, c1⟩ := r
              rw [hrec] at h
              simp only [Except.ok.injEq, Prod.mk.injEq] at h
              rw [← h.2.2]
              exact ih (p + 1) c out1 p1 c1 hrec
      · rw [if_neg hsp] at h
        by_cases hsm : lineSign ln = '-'
        · rw [if_pos hsm] at h
          have hch : isChangeLine ln = true :=
            isChangeLine_of_sign hempty (Or.inr hsm)
          rw [lineChanges_cons_change hch]
          by_cases hb : old.length ≤ p - 1
          · rw [if_pos hb] at h; exact absurd h (by simp)
          · rw [if_neg hb] at h
            by_cases hm : old.getD (p - 1) "" ≠ lineText ln
            · rw [if_pos hm] at h; exact absurd h (by simp)
            · rw [if_neg hm] at h
              by_cases hc : c ∈ want
              · rw [if_pos hc] at h
                have := ih (p + 1) (c + 1) out p' c' h
                omega
              · rw [if_neg hc] at h
                cases hrec : applyLines old want rest (p + 1) (c + 1) with
                | error e => rw [hrec] at h; exact absurd h (by simp)
                | ok r =>
                  obtain ⟨out1, p1, c1⟩ := r
                  rw [hrec] at h
                  simp only [Except.ok.injEq, Prod.mk.injEq] at h
                  rw [← h.2.2]
                  have := ih (p + 1) (c + 1) out1 p1 c1 hrec
                  omega
        · rw [if_neg hsm] at h
          by_cases hsa : lineSign ln = '+'
          · rw [if_pos hsa] at h
            have hch : isChangeLine ln = true :=
              isChangeLine_of_sign hempty (Or.inl hsa)
            rw [lineChanges_cons_change hch]
            by_cases hc : c ∈ want
            · rw [if_pos hc] at h
              cases hrec : applyLines old want rest p (c + 1) with
              | error e => rw [hrec] at h; exact absurd h (by simp)
              | ok r =>
                obtain ⟨out1, p1, c1⟩ := r
                rw [hrec] at h
                simp only [Except.ok.injEq, Prod.mk.injEq] at h
                rw [← h.2.2]
                have := ih p (c + 1) out1 p1 c1 hrec
                omega
            · rw [if_neg hc] at h
              have := ih p (c + 1) out p' c' h
              omega
          · rw [if_neg hsa] at h; exact absurd h (by simp)

theorem applyHunk_counter (old : List String) (want : List Nat)
    (h : HunkRaw) (p c : Nat) (out : List String) (p' c' : Nat)
    (hh : applyHunk old want h p c = .ok (out, p', c')) :
    c' = c + lineChanges h.all_lines := by
  by_cases hb : (if h.old_start > 0 then h.old_start else 1) - 1 >
      old.length + 1
  · simp [applyHunk, if_pos hb] at hh
  · cases hrec : applyLines old want h.all_lines
        (copyUntil old p (if h.old_start > 0 then h.old_start else 1)).2
        c with
    | error e => simp [applyHunk, if_neg hb, hrec] at hh
    | ok r =>
      obtain ⟨out1, p1, c1⟩ := r
      simp only [applyHunk, if_neg hb, hrec, Except.ok.injEq,
        Prod.mk.injEq] at hh
      rw [← hh.2.2]
      exact applyLines_counter old want h.all_lines _ c out1 p1 c1 hrec

theorem applyHunks_mem_ext (old : List String) (w1 w2 : List Nat) :
    ∀ (hs : List HunkRaw) (p c : Nat),
      (∀ k, c ≤ k → k < c + totalChanges hs → (k ∈ w1 ↔ k ∈ w2)) →
      applyHunks old w1 hs p c = applyHunks old w2 hs p c := by
  intro hs
  induction hs with
  | nil => intro p c hw; rfl
  | cons hk hs ih =>
    intro p c hw
    rw [totalChanges_cons] at hw
    have hw1 : ∀ k, c ≤ k → k < c + lineChanges hk.all_lines →
        (k ∈ w1 ↔ k ∈ w2) := fun k h1 h2 => hw k h1 (by omega)
    rw [applyHunks, applyHunks, applyHunk_mem_ext old w1 w2 hk p c hw1]
    cases h1 : applyHunk old w2 hk p c with
    | error e => rfl
    | ok r1 =>
      obtain ⟨out1, p1, c1⟩ := r1
      have hc1 : c1 = c + lineChanges hk.all_lines :=
        applyHunk_counter old w2 hk p c out1 p1 c1 h1
      have hw2 : ∀ k, c1 ≤ k → k < c1 + totalChanges hs →
          (k ∈ w1 ↔ k ∈ w2) := fun k ha hb => hw k (by omega) (by omega)
      simp only
      rw [ih p1 c1 hw2]

theorem apply_selected_mem_ext (old : List String) (hunks : List HunkRaw)
    (w1 w2 : List Nat)
    (hw : ∀ k, 1 ≤ k → k ≤ totalChanges hunks → (k ∈ w1 ↔ k ∈ w2)) :
    apply_selected_changes_to_old old hunks w1 =
      apply_selected_changes_to_old old hunks w2 := by
  rw [apply_selected_changes_to_old, apply_selected_changes_to_old]
  rw [applyHunks_mem_ext old w1 w2 (sortHunks hunks) 1 1
    (fun k h1 h2 => hw k h1 (by rw [totalChanges_sortHunks] at h2; omega))]

theorem numberTags_cons (c : Nat) (t : String) (ts : List String) :
    numberTags c (t :: ts) = (c, t) :: numberTags (c + 1) ts := rfl

theorem applyLinesAddr_equiv (old : List String) (want : List Nat) :
    ∀ (lines : List String) (restT : List String) (p c : Nat),
      applyLinesAddr old want lines p
          (numberTags c (lines.filter isChangeLine ++ restT)) =
        (match applyLines old want lines p c with
         | .error e => .error e
         | .ok (out, p', c') => .ok (out, p', numberTags c' restT)) := by
  intro lines
  induction lines with
  | nil => intro restT p c; simp [applyLinesAddr, applyLines]
  | cons ln rest ih =>
    intro restT p c
    by_cases hempty : ln = ""
    · have hch : isChangeLine ln = false := hempty ▸ isChangeLine_empty
      rw [List.filter_cons_of_neg (by simp [hch]), applyLinesAddr,
        if_pos hempty, applyLines, if_pos hempty]
      exact ih restT p c
    · rw [applyLinesAddr, if_neg hempty, applyLines, if_neg hempty]
      by_cases hsp : lineSign ln = ' '
      · have hch : isChangeLine ln = false :=
          isChangeLine_other (by rw [hsp]; decide) (by rw [hsp]; decide)
        rw [List.filter_cons_of_neg (by simp [hch])]
        rw [if_pos hsp, if_pos hsp]
        by_cases hb : old.length ≤ p - 1
        · rw [if_pos hb, if_pos hb]
        · rw [if_neg hb, if_neg hb]
          by_cases hm : old.getD (p - 1) "" ≠ lineText ln
          · rw [if_pos hm, if_pos hm]
          · rw [if_neg hm, if_neg hm, ih restT (p + 1) c]
            cases hrec : applyLines old want rest (p + 1) c with
            | error e => simp
            | ok r => obtain ⟨out1, p1, c1⟩ := r; simp
      · rw [if_neg hsp, if_neg hsp]
        by_cases hsm : lineSign ln = '-'
        · have hch : isChangeLine ln = true :=
            isChangeLine_of_sign hempty (Or.inr hsm)
          rw [List.filter_cons_of_pos (by simp [hch]), List.cons_append,
            numberTags_cons]
          rw [if_pos hsm, if_pos hsm]
          by_cases hb : old.length ≤ p - 1
          · rw [if_pos hb, if_pos hb]
          · rw [if_neg hb, if_neg hb]
            by_cases hm : old.getD (p - 1) "" ≠ lineText ln
            · rw [if_pos hm, if_pos hm]
            · rw [if_neg hm, if_neg hm]
              simp only [List.headD_cons, List.tail_cons]
              by_cases hc : c ∈ want
              · rw [if_pos hc, if_pos hc]
                exact ih restT (p + 1) (c + 1)
              · rw [if_neg hc, if_neg hc, ih restT (p + 1) (c + 1)]
                cases hrec : applyLines old want rest (p + 1) (c + 1) with
                | error e => simp
                | ok r => obtain ⟨out1, p1, c1⟩ := r; simp
        · rw [if_neg hsm, if_neg hsm]
          by_cases hsa : lineSign ln = '+'
          · have hch : isChangeLine ln = true :=
              isChangeLine_of_sign hempty (Or.inl hsa)
            rw [List.filter_cons_of_pos (by simp [hch]), List.cons_append,
              numberTags_cons]
            rw [if_pos hsa, if_pos hsa]
            simp only [List.headD_cons, List.tail_cons]
            by_cases hc : c ∈ want
            · rw [if_pos hc, if_pos hc, ih restT p (c + 1)]
              cases hrec : applyLines old want rest p (c + 1) with
              | error e => simp
              | ok r => obtain ⟨out1, p1, c1⟩ := r; simp
            · rw [if_neg hc, if_neg hc]
              exact ih restT p (c + 1)
          · rw [if_neg hsa, if_neg hsa]

theorem applyHunkAddr_equiv (old : List String) (want : List Nat)
    (h : HunkRaw) (restT : List String) (p c : Nat) :
    applyHunkAddr old want h p (numberTags c (hunkTags h ++ restT)) =
      (match applyHunk old want h p c with
       | .error e => .error e
       | .ok (out, p', c') => .ok (out, p', numberTags c' restT)) := by
  simp only [applyHunkAddr, applyHunk]
  by_cases hb : (if h.old_start > 0 then h.old_start else 1) - 1 >
      old.length + 1
  · rw [if_pos hb, if_pos hb]
  · rw [if_neg hb, if_neg hb]
    have := applyLinesAddr_equiv old want h.all_lines restT
      (copyUntil old p (if h.old_start > 0 then h.old_start else 1)).2 c
    rw [hunkTags] at *
    rw [this]
    cases hrec : applyLines old want h.all_lines
        (copyUntil old p (if h.old_start > 0 then h.old_start else 1)).2
        c with
    | error e => simp
    | ok r => obtain ⟨out1, p1, c1⟩ := r; simp

theorem applyHunksAddr_equiv (old : List String) (want : List Nat) :
    ∀ (hs : List HunkRaw) (restT : List String) (p c : Nat),
      applyHunksAddr old want hs p
          (numberTags c ((hs.map hunkTags).flatten ++ restT)) =
        (match applyHunks old want hs p c with
         | .error e => .error e
         | .ok (out, p', c') => .ok (out, p', numberTags c' restT)) := by
  intro hs
  induction hs with
  | nil => intro restT p c; simp [applyHunksAddr, applyHunks]
  | cons hk hs ih =>
    intro restT p c
    have hsplit : ((hk :: hs).map hunkTags).flatten ++ restT =
        hunkTags hk ++ ((hs.map hunkTags).flatten ++ restT) := by
      simp
    rw [hsplit, applyHunksAddr, applyHunks,
      applyHunkAddr_equiv old want hk ((hs.map hunkTags).flatten ++ restT)
        p c]
    cases h1 : applyHunk old want hk p c with
    | error e => rfl
    | ok r1 =>
      obtain ⟨out1, p1, c1⟩ := r1
      simp only
      rw [ih restT p1 c1]
      cases h2 : applyHunks old want hs p1 c1 with
      | error e => simp
      | ok r2 => obtain ⟨out2, p2, c2⟩ := r2; simp

theorem apply_selected_eq_applyAddressed (old : List String)
    (hunks : List HunkRaw) (want : List Nat) :
    apply_selected_changes_to_old old hunks want =
      applyAddressed old hunks want := by
  rw [apply_selected_changes_to_old, applyAddressed]
  have haddr : addressedTags hunks =
      numberTags 1 (((sortHunks hunks).map hunkTags).flatten ++ []) := by
    simp [addressedTags, changeTags]
  rw [haddr, applyHunksAddr_equiv old want (sortHunks hunks) [] 1 1]
  cases h1 : applyHunks old want (sortHunks hunks) 1 1 with
  | error e => rfl
  | ok r => obtain ⟨out, p, c⟩ := r; simp

theorem digitChar_isDigit {n : Nat} (h : n < 10) :
    (Nat.digitChar n).isDigit = true := by
  interval_cases n <;> decide

theorem natDigitsFuel_head (fuel : Nat) :
    ∀ n, n < fuel → natDigitsFuel fuel n ≠ [] ∧
      ((natDigitsFuel fuel n).headD 'A').isDigit = true := by
  induction fuel with
  | zero => intro n h; omega
  | succ fuel ih =>
    intro n h
    by_cases h10 : n < 10
    · rw [natDigitsFuel, if_pos h10]
      exact ⟨by simp, by simpa using digitChar_isDigit h10⟩
    · rw [natDigitsFuel, if_neg h10]
      have hdiv : n / 10 < fuel := by
        have hlt : n / 10 < n := Nat.div_lt_self (by omega) (by omega)
        omega
      obtain ⟨h1, h2⟩ := ih (n / 10) hdiv
      refine ⟨by simp, ?_⟩
      cases hnd : natDigitsFuel fuel (n / 10) with
      | nil => exact absurd hnd h1
      | cons a l => rw [hnd] at h2; simpa using h2

theorem natDigits_ne_nil (n : Nat) : natDigits n ≠ [] :=
  (natDigitsFuel_head (n + 1) n (Nat.lt_succ_self n)).1

theorem natDigits_head_digit (n : Nat) :
    ((natDigits n).headD 'A').isDigit = true :=
  (natDigitsFuel_head (n + 1) n (Nat.lt_succ_self n)).2

theorem headD_append_of_ne_nil {α : Type} {l1 l2 : List α} {d : α}
    (h : l1 ≠ []) : (l1 ++ l2).headD d = l1.headD d := by
  cases l1 with
  | nil => exact absurd rfl h
  | cons a t => rfl

theorem pad4_data (n : Nat) : (pad4 n).data =
    List.replicate (4 - (natDigits n).length) '0' ++ natDigits n := rfl

theorem pad4_data_ne_nil (n : Nat) : (pad4 n).data ≠ [] := by
  rw [pad4_data]
  simp [natDigits_ne_nil n]

theorem pad4_head_digit (n : Nat) :
    (((pad4 n).data).headD 'A').isDigit = true := by
  rw [pad4_data]
  cases hrep : 4 - (natDigits n).length with
  | zero => simpa using natDigits_head_digit n
  | succ k => simp [List.replicate_succ]

theorem fmtChange_digitFront (e : Nat × String) :
    (lineSign (fmtChange e)).isDigit = true := by
  have hne := pad4_data_ne_nil e.1
  rw [fmtChange, lineSign, String.data_append, String.data_append,
    String.data_append, String.data_append]
  rw [headD_append_of_ne_nil (by simp [hne]),
    headD_append_of_ne_nil (by simp [hne]),
    headD_append_of_ne_nil (by simp [hne]),
    headD_append_of_ne_nil hne]
  exact pad4_head_digit e.1

theorem lineSign_indent (text : String) :
    lineSign ("        " ++ text) = ' ' := by
  rw [lineSign, String.data_append]
  rfl

theorem numberTags_append (xs ys : List String) :
    ∀ c, numberTags c (xs ++ ys) =
      numberTags c xs ++ numberTags (c + xs.length) ys := by
  induction xs with
  | nil => intro c; simp [numberTags]
  | cons x xs ih =>
    intro c
    rw [List.cons_append, numberTags_cons, numberTags_cons, ih (c + 1)]
    have harith : c + 1 + xs.length = c + (x :: xs).length := by
      simp; omega
    rw [harith, List.cons_append]

theorem flatLines_filter :
    ∀ (lines : List String) (n : Nat) (out : List String) (n' : Nat),
      flatLines n lines = some (out, n') →
      out.filter (fun l => (lineSign l).isDigit) =
        (numberTags n (lines.filter isChangeLine)).map fmtChange ∧
      n' = n + lineChanges lines := by
  intro lines
  induction lines with
  | nil =>
    intro n out n' h
    simp only [flatLines, Option.some.injEq, Prod.mk.injEq] at h
    rw [← h.1, ← h.2]
    simp [numberTags, lineChanges]
  | cons ln rest ih =>
    intro n out n' h
    by_cases hempty : ln = ""
    · rw [flatLines, if_pos hempty] at h; exact absurd h (by simp)
    · rw [flatLines, if_neg hempty] at h
      by_cases hpm : lineSign ln = '+' ∨ lineSign ln = '-'
      · rw [if_pos hpm] at h
        cases hrec : flatLines (n + 1) rest with
        | none => rw [hrec] at h; exact absurd h (by simp)
        | some r =>
          obtain ⟨out1, n1⟩ := r
          rw [hrec] at h
          simp only [Option.some.injEq, Prod.mk.injEq] at h
          obtain ⟨h1, h2⟩ := h
          rw [← h1, ← h2]
          obtain ⟨ih1, ih2⟩ := ih (n + 1) out1 n1 hrec
          have hch : isChangeLine ln = true :=
            isChangeLine_of_sign hempty hpm
          constructor
          · rw [List.filter_cons_of_pos
              (by simpa using fmtChange_digitFront (n, ln)),
              List.filter_cons_of_pos (by simp [hch]), numberTags_cons,
              List.map_cons, ih1]
            rfl
          · rw [ih2, lineChanges_cons_change hch]; omega
      · rw [if_neg hpm] at h
        push_neg at hpm
        have hch : isChangeLine ln = false :=
          isChangeLine_other hpm.1 hpm.2
        by_cases hsp : lineSign ln = ' '
        · rw [if_pos hsp] at h
          cases hrec : flatLines n rest with
          | none => rw [hrec] at h; exact absurd h (by simp)
          | some r =>
            obtain ⟨out1, n1⟩ := r
            rw [hrec] at h
            simp only [Option.some.injEq, Prod.mk.injEq] at h
            obtain ⟨h1, h2⟩ := h
            rw [← h1, ← h2]
            obtain ⟨ih1, ih2⟩ := ih n out1 n1 hrec
            constructor
            · rw [List.filter_cons_of_neg
                (by simp [lineSign_indent (lineText ln)]),
                List.filter_cons_of_neg (by simp [hch]), ih1]
            · rw [ih2, lineChanges_cons_other hch]
        · rw [if_neg hsp] at h
          obtain ⟨ih1, ih2⟩ := ih n out n' h
          exact ⟨by rw [List.filter_cons_of_neg (by simp [hch]), ih1],
            by rw [ih2, lineChanges_cons_other hch]⟩

theorem lineSign_sep : (lineSign "        ...").isDigit = false := by
  decide

theorem flatGo_filter :
    ∀ (hs : List HunkRaw) (n : Nat) (first : Bool) (out : List String),
      flatGo n first hs = some out →
      out.filter (fun l => (lineSign l).isDigit) =
        (numberTags n ((hs.map hunkTags).flatten)).map fmtChange := by
  intro hs
  induction hs with
  | nil =>
    intro n first out h
    simp only [flatGo, Option.some.injEq] at h
    rw [← h]
    simp [numberTags]
  | cons hk hs ih =>
    intro n first out h
    cases h1 : flatLines n hk.all_lines with
    | none => simp [flatGo, h1] at h
    | some r =>
      obtain ⟨out1, n1⟩ := r
      cases h2 : flatGo n1 false hs with
      | none => simp [flatGo, h1, h2] at h
      | some rest =>
        simp only [flatGo, h1, h2, Option.some.injEq] at h
        rw [← h]
        obtain ⟨g1, g2⟩ := flatLines_filter hk.all_lines n out1 n1 h1
        have g3 := ih n1 false rest h2
        rw [List.filter_append, List.filter_append, g1, g3]
        have hsep : (if first then ([] : List String)
            else ["        ..."]).filter
            (fun l => (lineSign l).isDigit) = [] := by
          cases first <;> simp [lineSign_sep]
        rw [hsep, List.nil_append]
        have hlen : (hunkTags hk).length = lineChanges hk.all_lines := rfl
        rw [List.map_cons, List.flatten_cons,
          numberTags_append (hunkTags hk) (hs.map hunkTags).flatten n,
          List.map_append, hlen, ← g2]
        rfl

theorem flatLines_eq_render :
    ∀ (lines : List String) (n : Nat), (∀ ln ∈ lines, ln ≠ "") →
      flatLines n lines = some (renderLines n lines) := by
  intro lines
  induction lines with
  | nil => intro n _; rfl
  | cons ln rest ih =>
    intro n hne
    have hlnne : ln ≠ "" := hne ln (by simp)
    have hrest : ∀ l ∈ rest, l ≠ "" := fun l hl => hne l (by simp [hl])
    rw [flatLines, if_neg hlnne, renderLines]
    by_cases hpm : lineSign ln = '+' ∨ lineSign ln = '-'
    · rw [if_pos hpm, if_pos hpm, ih (n + 1) hrest]
    · rw [if_neg hpm, if_neg hpm]
      by_cases hsp : lineSign ln = ' '
      · rw [if_pos hsp, if_pos hsp, ih n hrest]
      · rw [if_neg hsp, if_neg hsp]
        exact ih n hrest

theorem flatGo_false_eq :
    ∀ (hs : List HunkRaw) (n : Nat),
      (∀ h ∈ hs, ∀ ln ∈ h.all_lines, ln ≠ "") →
      flatGo n false hs = some
        (match hs with
         | [] => []
         | _ :: _ => "        ..." :: renderHunksSep n hs) := by
  intro hs
  induction hs with
  | nil => intro n _; rfl
  | cons hk hs ih =>
    intro n hne
    have h1 : flatLines n hk.all_lines = some (renderLines n hk.all_lines) :=
      flatLines_eq_render hk.all_lines n (hne hk (by simp))
    have hrest : ∀ h ∈ hs, ∀ ln ∈ h.all_lines, ln ≠ "" :=
      fun h hh => hne h (by simp [hh])
    rcases hrl : renderLines n hk.all_lines with ⟨rl, rn⟩
    rw [hrl] at h1
    simp only [flatGo, h1]
    rw [ih rn hrest]
    cases hs with
    | nil => simp [renderHunksSep, hrl]
    | cons h2 t => simp [renderHunksSep, hrl]

theorem flatGo_true_eq (hs : List HunkRaw) (n : Nat)
    (hne : ∀ h ∈ hs, ∀ ln ∈ h.all_lines, ln ≠ "") :
    flatGo n true hs = some (renderHunksSep n hs) := by
  cases hs with
  | nil => rfl
  | cons hk hs =>
    have h1 : flatLines n hk.all_lines = some (renderLines n hk.all_lines) :=
      flatLines_eq_render hk.all_lines n (hne hk (by simp))
    have hrest : ∀ h ∈ hs, ∀ ln ∈ h.all_lines, ln ≠ "" :=
      fun h hh => hne h (by simp [hh])
    rcases hrl : renderLines n hk.all_lines with ⟨rl, rn⟩
    rw [hrl] at h1
    simp only [flatGo, h1]
    rw [flatGo_false_eq hs rn hrest]
    cases hs with
    | nil => simp [renderHunksSep, hrl]
    | cons h2 t => simp [renderHunksSep, hrl]

theorem applyHunks_err_of_bad_hunk (old : List String) (want : List Nat)
    (h : HunkRaw) (hbad : old.length + 2 < h.old_start) :
    ∀ (hs : List HunkRaw) (p c : Nat), h ∈ hs →
      ∃ e, applyHunks old want hs p c = .error e := by
  intro hs
  induction hs with
  | nil => intro p c hm; exact absurd hm (by simp)
  | cons hk hs ih =>
    intro p c hm
    by_cases hhk : applyHunk old want hk p c = .error (.outOfBounds
        (if hk.old_start > 0 then hk.old_start else 1) old.length)
    · exact ⟨_, by rw [applyHunks, hhk]⟩
    · rcases List.mem_cons.1 hm with rfl | hmem
      · -- the head is the bad hunk: its bounds check fails
        exfalso
        apply hhk
        have hpos : h.old_start > 0 := by omega
        have hcond : (if h.old_start > 0 then h.old_start else 1) - 1 >
            old.length + 1 := by rw [if_pos hpos]; omega
        rw [applyHunk]
        simp only [if_pos hcond]
      · cases h1 : applyHunk old want hk p c with
        | error e => exact ⟨e, by rw [applyHunks, h1]⟩
        | ok r1 =>
          obtain ⟨out1, p1, c1⟩ := r1
          obtain ⟨e, he⟩ := ih p1 c1 hmem
          exact ⟨e, by rw [applyHunks, h1]; simp only; rw [he]⟩

theorem apply_selected_err_of_bad_hunk (old : List String)
    (hunks : List HunkRaw) (want : List Nat) (h : HunkRaw)
    (hm : h ∈ hunks) (hbad : old.length + 2 < h.old_start) :
    ∃ e, apply_selected_changes_to_old old hunks want = .error e := by
  obtain ⟨e, he⟩ := applyHunks_err_of_bad_hunk old want h hbad
    (sortHunks hunks) 1 1 (mem_sortHunks hm)
  exact ⟨e, by rw [apply_selected_changes_to_old, he]⟩

theorem mem_insertSortedNat {a x : Nat} :
    ∀ {l : List Nat}, a ∈ insertSortedNat x l ↔ a = x ∨ a ∈ l := by
  intro l
  induction l with
  | nil => simp [insertSortedNat]
  | cons y ys ih =>
    rw [insertSortedNat]
    by_cases hle : y ≤ x
    · rw [if_pos hle]
      simp only [List.mem_cons, ih]
      tauto
    · rw [if_neg hle]
      simp only [List.mem_cons]

theorem mem_sortedSet_foldl (a : Nat) :
    ∀ (l acc : List Nat),
      (a ∈ l.foldl
          (fun acc x => if x ∈ acc then acc else insertSortedNat x acc)
          acc ↔ a ∈ acc ∨ a ∈ l) := by
  intro l
  induction l with
  | nil => intro acc; simp
  | cons x xs ih =>
    intro acc
    rw [List.foldl_cons, ih]
    by_cases hx : x ∈ acc
    · rw [if_pos hx]
      simp only [List.mem_cons]
      constructor
      · rintro (h | h)
        · exact Or.inl h
        · exact Or.inr (Or.inr h)
      · rintro (h | h | h)
        · exact Or.inl h
        · exact h ▸ Or.inl hx
        · exact Or.inr h
    · rw [if_neg hx]
      simp only [mem_insertSortedNat, List.mem_cons]
      tauto

theorem mem_sortedSet {a : Nat} {l : List Nat} :
    a ∈ sortedSet l ↔ a ∈ l := by
  simpa [sortedSet] using mem_sortedSet_foldl a l []

theorem parseTokensGo_ok :
    ∀ (toks : List String),
      (∀ tok ∈ toks, validTok (String.mk (trimChars tok.data)) = true) →
      parseTokensGo toks = .ok
        ((toks.map
          (fun tok => denoteTok (String.mk (trimChars tok.data)))).flatten)
    := by
  intro toks
  induction toks with
  | nil => intro _; rfl
  | cons tok rest ih =>
    intro hv
    have hvt := hv tok (by simp)
    have hrest : ∀ t ∈ rest, validTok (String.mk (trimChars t.data)) = true :=
      fun t ht => hv t (by simp [ht])
    rw [List.map_cons, List.flatten_cons]
    simp only [parseTokensGo]
    by_cases h0 : String.mk (trimChars tok.data) = ""
    · rw [if_pos h0, ih hrest]
      rw [denoteTok, if_pos h0, List.nil_append]
    · rw [if_neg h0]
      cases h4 : isTok4 (String.mk (trimChars tok.data)).data with
      | true =>
        simp only [h4, if_true]
        simp only [ih hrest]
        rw [denoteTok, if_neg h0]
        simp only [h4, if_true]
        rfl
      | false =>
        simp only [h4, Bool.false_eq_true, if_false]
        cases hrt : rangeTok (String.mk (trimChars tok.data)).data with
        | none =>
          exfalso
          simp [validTok, h0, h4, hrt] at hvt
        | some gp =>
          simp only [hrt]
          have hab : digitsVal gp.1 ≤ digitsVal gp.2 := by
            simpa [validTok, h0, h4, hrt] using hvt
          rw [if_neg (by omega : ¬digitsVal gp.1 > digitsVal gp.2)]
          simp only [ih hrest]
          rw [denoteTok, if_neg h0]
          simp only [h4, Bool.false_eq_true, if_false, hrt]

theorem parseTokensGo_err :
    ∀ (toks : List String) (tok : String), tok ∈ toks →
      validTok (String.mk (trimChars tok.data)) = false →
      ∃ e, parseTokensGo toks = .error e := by
  intro toks
  induction toks with
  | nil => intro tok hm; exact absurd hm (by simp)
  | cons tk rest ih =>
    intro tok hm hbad
    rcases List.mem_cons.1 hm with rfl | hmem
    · -- the bad token is at the head
      simp only [parseTokensGo]
      have h0 : ¬String.mk (trimChars tok.data) = "" := by
        intro h0; rw [validTok] at hbad; simp [h0] at hbad
      rw [if_neg h0]
      cases h4 : isTok4 (String.mk (trimChars tok.data)).data with
      | true => exfalso; rw [validTok] at hbad; simp [h4] at hbad
      | false =>
        simp only [h4, Bool.false_eq_true, if_false]
        cases hrt : rangeTok (String.mk (trimChars tok.data)).data with
        | none =>
          dsimp only
          exact ⟨_, rfl⟩
        | some gp =>
          have hab : ¬digitsVal gp.1 ≤ digitsVal gp.2 := by
            intro hle
            rw [validTok] at hbad
            simp [h0, h4, hrt, hle] at hbad
          dsimp only
          rw [if_pos (by omega : digitsVal gp.1 > digitsVal gp.2)]
          exact ⟨_, rfl⟩
    · -- the bad token is further down: every head outcome propagates
      simp only [parseTokensGo]
      obtain ⟨e, he⟩ := ih tok hmem hbad
      by_cases h0 : String.mk (trimChars tk.data) = ""
      · rw [if_pos h0]; exact ⟨e, he⟩
      · rw [if_neg h0]
        cases h4 : isTok4 (String.mk (trimChars tk.data)).data with
        | true =>
          simp only [if_true]
          rw [he]
          exact ⟨e, rfl⟩
        | false =>
          simp only [h4, Bool.false_eq_true, if_false]
          cases hrt : rangeTok (String.mk (trimChars tk.data)).data with
          | none => exact ⟨_, rfl⟩
          | some gp =>
            dsimp only
            by_cases hgt : digitsVal gp.1 > digitsVal gp.2
            · rw [if_pos hgt]; exact ⟨_, rfl⟩
            · rw [if_neg hgt, he]; exact ⟨e, rfl⟩

theorem replayGo_conflict :
    ∀ (ps : List (List HunkRaw)) (N : Nat) (c0 c : List String)
      (e : DriftError) (i : Nat),
      replayAcc c0 (ps.take N) = some c →
      ∀ (hN : N < ps.length),
      apply_selected_changes_to_old c (ps.get ⟨N, hN⟩)
          (fullSelection (ps.get ⟨N, hN⟩)) = .error e →
      replayGo c0 ps i = .conflict (i + N) e := by
  intro ps
  induction ps with
  | nil => intro N c0 c e i _ hN; exact absurd hN (by simp)
  | cons p rest ih =>
    intro N c0 c e i hacc hN happ
    cases N with
    | zero =>
      simp only [List.take_zero, replayAcc, Option.some.injEq] at hacc
      subst hacc
      simp only [List.get] at happ
      simp only [replayGo, happ, Nat.add_zero]
    | succ N =>
      rw [List.take_succ_cons] at hacc
      rw [replayAcc] at hacc
      cases h1 : apply_selected_changes_to_old c0 p (fullSelection p) with
      | error e1 => rw [h1] at hacc; exact absurd hacc (by simp)
      | ok c1 =>
        rw [h1] at hacc
        simp only at hacc
        have hN' : N < rest.length := by simpa using hN
        have happ' : apply_selected_changes_to_old c
            (rest.get ⟨N, hN'⟩) (fullSelection (rest.get ⟨N, hN'⟩)) =
            .error e := by simpa using happ
        rw [replayGo, h1]
        simp only
        rw [ih N c1 c e (i + 1) hacc hN' happ']
        congr 1
        omega

/-! ## Claim theorems -/

/-- Claim C1: for every file whose hunks match the original content,
applying the complete set of change identifiers via
`apply_selected_changes_to_old` produces exactly the post-diff line
sequence (the spec's full application), and applying the empty selection
set reproduces the original pre-diff line sequence exactly. -/
theorem C1_round_trip (old_lines : List String) (hunks : List HunkRaw) :
    apply_selected_changes_to_old old_lines hunks (fullSelection hunks) =
      fullApplySpec old_lines hunks ∧
    (∀ res, apply_selected_changes_to_old old_lines hunks [] = .ok res →
      res = old_lines) :=
  ⟨apply_selected_full old_lines hunks,
   fun res h => apply_selected_empty old_lines hunks res h⟩

/-- Witness for C1 on the spec's deletion/addition example. -/
theorem C1_round_trip_witness :
    apply_selected_changes_to_old ["line 1", "line 2", "line 3"]
        [⟨"f", "@@ -1,3 +1,3 @@",
          [" line 1", "-line 2", "+new line", " line 3"], 1, 3, 1, 3⟩]
        (fullSelection [⟨"f", "@@ -1,3 +1,3 @@",
          [" line 1", "-line 2", "+new line", " line 3"], 1, 3, 1, 3⟩]) =
      fullApplySpec ["line 1", "line 2", "line 3"]
        [⟨"f", "@@ -1,3 +1,3 @@",
          [" line 1", "-line 2", "+new line", " line 3"], 1, 3, 1, 3⟩] ∧
    (["line 1", "line 2", "line 3"] : List String) =
      ["line 1", "line 2", "line 3"] :=
  ⟨(C1_round_trip ["line 1", "line 2", "line 3"]
      [⟨"f", "@@ -1,3 +1,3 @@",
        [" line 1", "-line 2", "+new line", " line 3"], 1, 3, 1, 3⟩]).1,
   (C1_round_trip ["line 1", "line 2", "line 3"]
      [⟨"f", "@@ -1,3 +1,3 @@",
        [" line 1", "-line 2", "+new line", " line 3"], 1, 3, 1, 3⟩]).2
     ["line 1", "line 2", "line 3"] (by decide)⟩

/-- Claim C2: `apply_one_file` is atomic — when reconstruction fails
with a drift error it writes nothing to the index, applies nothing, and
reports every requested identifier (the sorted selection set) as skipped
with reason drift; the index is written only when the whole
reconstruction succeeds, with exactly the rendered new content. -/
theorem C2_apply_one_file_atomic (path : String) (want_numbers : List Nat)
    (diff_text : String) (old_lines : List String)
    (had_trailing_nl : Bool) :
    (∀ e, lookupD (parse_unified_diff diff_text).2 path false = false →
      apply_selected_changes_to_old old_lines
          (lookupD (parse_unified_diff diff_text).1 path [])
          (sortedSet want_numbers) = .error e →
      apply_one_file path want_numbers diff_text old_lines had_trailing_nl
        = ⟨[], (sortedSet want_numbers).map (fun n => (path, n, "drift")),
            none⟩) ∧
    (∀ t, (apply_one_file path want_numbers diff_text old_lines
        had_trailing_nl).indexWrite = some t →
      ∃ res, apply_selected_changes_to_old old_lines
          (lookupD (parse_unified_diff diff_text).1 path [])
          (sortedSet want_numbers) = .ok res ∧
        t = renderContent res had_trailing_nl) ∧
    (∀ k, k ∈ sortedSet want_numbers ↔ k ∈ want_numbers) := by
  refine ⟨?_, ?_, fun k => mem_sortedSet⟩
  · intro e hbin herr
    simp only [apply_one_file, hbin, Bool.false_eq_true, if_false]
    by_cases hemp : lookupD (parse_unified_diff diff_text).1 path [] = []
    · exfalso
      rw [hemp] at herr
      rw [apply_selected_changes_to_old] at herr
      simp [sortHunks, applyHunks] at herr
    · rw [if_neg hemp, herr]
  · intro t hw
    by_cases hbin : lookupD (parse_unified_diff diff_text).2 path false
    · simp [apply_one_file, hbin] at hw
    · simp only [apply_one_file, hbin, Bool.false_eq_true, if_false] at hw
      by_cases hemp : lookupD (parse_unified_diff diff_text).1 path [] = []
      · rw [if_pos hemp] at hw
        simp at hw
      · rw [if_neg hemp] at hw
        cases happ : apply_selected_changes_to_old old_lines
            (lookupD (parse_unified_diff diff_text).1 path [])
            (sortedSet want_numbers) with
        | error e => rw [happ] at hw; simp at hw
        | ok new_lines =>
          rw [happ] at hw
          simp only [Option.some.injEq] at hw
          exact ⟨new_lines, rfl, hw.symm⟩

/-- Witness for C2: a deletion mismatch (drift) leaves the index
untouched and reports the requested identifiers as skipped. -/
theorem C2_apply_one_file_atomic_witness :
    apply_one_file "f" [2, 1]
        "--- a/f\n+++ b/f\n@@ -1,3 +1,2 @@\n line 1\n-line 2\n line 3"
        ["line 1", "CHANGED", "line 3"] true =
      ⟨[], [("f", 1, "drift"), ("f", 2, "drift")], none⟩ :=
  ((C2_apply_one_file_atomic "f" [2, 1]
      "--- a/f\n+++ b/f\n@@ -1,3 +1,2 @@\n line 1\n-line 2\n line 3"
      ["line 1", "CHANGED", "line 3"] true).1
    (.deletionMismatch 2 "line 2" "CHANGED") (by decide) (by decide)).trans
    (by decide)

/-- Claim C3 counterexample: a hunk whose `old_start` exceeds the
original length by exactly two positions (here `old_start = 3` against a
1-line file, `3 > 1 + 1`) does not fail — the patcher produces output. -/
theorem C3_out_of_bounds_counterexample :
    (⟨"f", "@@ -3,0 +2,1 @@", ["+x"], 3, 0, 2, 1⟩ : HunkRaw).old_start >
      (["a"] : List String).length + 1 ∧
    apply_selected_changes_to_old ["a"]
        [⟨"f", "@@ -3,0 +2,1 @@", ["+x"], 3, 0, 2, 1⟩] [1] =
      .ok ["a", "x"] := by
  decide

/-- Claim C3 (amended): the out-of-bounds check fires only when a hunk's
`old_start` exceeds the content length by more than two positions
(`old_start > length + 2`, i.e. `pre_start - 1 > length + 1` in the
code); in that case the patcher fails rather than producing output. -/
theorem C3_out_of_bounds_amended (old_lines : List String)
    (hunks : List HunkRaw) (want : List Nat) (h : HunkRaw)
    (hm : h ∈ hunks) (hbad : old_lines.length + 2 < h.old_start) :
    ∃ e, apply_selected_changes_to_old old_lines hunks want = .error e :=
  apply_selected_err_of_bad_hunk old_lines hunks want h hm hbad

/-- Witness for the amended C3 at `old_start = 4` against a 1-line
file. -/
theorem C3_out_of_bounds_amended_witness :
    ∃ e, apply_selected_changes_to_old ["a"]
        [⟨"f", "@@ -4,0 +2,1 @@", ["+x"], 4, 0, 2, 1⟩] [1] = .error e :=
  C3_out_of_bounds_amended ["a"]
    [⟨"f", "@@ -4,0 +2,1 @@", ["+x"], 4, 0, 2, 1⟩] [1]
    ⟨"f", "@@ -4,0 +2,1 @@", ["+x"], 4, 0, 2, 1⟩ (by decide) (by decide)

/-- Claim C4: the Change Addresser and the Selective Patcher share one
numbering.  The numbered lines of the flattened view are exactly the
`addressedTags` mapping (identifier k for the k-th added/removed line of
the sorted traversal) rendered with zero-padded numbers, and the patcher
equals the reference that decides the k-th tagged line by testing that
same identifier k against the selection. -/
theorem C4_shared_numbering (old_lines : List String)
    (hunks : List HunkRaw) (want : List Nat) :
    (∀ out, flat_file_lines_with_numbers hunks = some out →
      out.filter (fun l => (lineSign l).isDigit) =
        (addressedTags hunks).map fmtChange) ∧
    apply_selected_changes_to_old old_lines hunks want =
      applyAddressed old_lines hunks want := by
  constructor
  · intro out h
    rw [flat_file_lines_with_numbers] at h
    have hf := flatGo_filter (sortHunks hunks) 1 true out h
    rw [hf, addressedTags, changeTags]
  · exact apply_selected_eq_applyAddressed old_lines hunks want

/-- Witness for C4 on a hunk with a context, a removal and an
addition. -/
theorem C4_shared_numbering_witness :
    (["        ctx", "0001: - del", "0002: + add"] : List String).filter
        (fun l => (lineSign l).isDigit) =
      (addressedTags [⟨"f", "h", [" ctx", "-del", "+add"], 1, 2, 1, 2⟩]).map
        fmtChange ∧
    apply_selected_changes_to_old ["ctx", "del"]
        [⟨"f", "h", [" ctx", "-del", "+add"], 1, 2, 1, 2⟩] [2] =
      applyAddressed ["ctx", "del"]
        [⟨"f", "h", [" ctx", "-del", "+add"], 1, 2, 1, 2⟩] [2] :=
  ⟨(C4_shared_numbering ["ctx", "del"]
      [⟨"f", "h", [" ctx", "-del", "+add"], 1, 2, 1, 2⟩] [2]).1
      ["        ctx", "0001: - del", "0002: + add"] (by decide),
   (C4_shared_numbering ["ctx", "del"]
      [⟨"f", "h", [" ctx", "-del", "+add"], 1, 2, 1, 2⟩] [2]).2⟩

/-- Claim C5: branch replay in the unstack Dependency Analyzer is
all-or-nothing — if the full-selection patch of the N-th commit fails
against the branch's accumulated content, the branch's outcome is a
conflict recording that commit's index, and no branch ref is created at
all (the ref set is unchanged; in particular no partial branch with the
first N−1 commits exists). -/
theorem C5_unstack_all_or_nothing (existing : List String) (name : String)
    (parentContent : List String) (patches : List (List HunkRaw))
    (N : Nat) (c : List String) (e : DriftError)
    (hname : name ∉ existing)
    (hacc : replayAcc parentContent (patches.take N) = some c)
    (hN : N < patches.length)
    (happ : apply_selected_changes_to_old c (patches.get ⟨N, hN⟩)
        (fullSelection (patches.get ⟨N, hN⟩)) = .error e) :
    replayBranch existing name parentContent patches = .conflict N e ∧
    branchRefsAfter existing name parentContent patches = existing := by
  have hgo : replayGo parentContent patches 0 = .conflict (0 + N) e :=
    replayGo_conflict patches N parentContent c e 0 hacc hN happ
  have hrb : replayBranch existing name parentContent patches =
      .conflict N e := by
    rw [replayBranch, if_neg hname, hgo]
    congr 1
    omega
  exact ⟨hrb, by rw [branchRefsAfter, hrb]⟩

/-- Witness for C5: the repository's unstack-conflict scenario — commit
C (delete line 2 of B's three lines) replayed alone onto the empty-file
parent conflicts at index 0 and creates no branch. -/
theorem C5_unstack_all_or_nothing_witness :
    replayBranch [] "feat/delete-line" []
        [[⟨"f", "@@ -1,3 +1,2 @@", [" a", "-b", " c"], 1, 3, 1, 2⟩]] =
      .conflict 0 (.contextBeyondEnd 1 0) ∧
    branchRefsAfter [] "feat/delete-line" []
        [[⟨"f", "@@ -1,3 +1,2 @@", [" a", "-b", " c"], 1, 3, 1, 2⟩]] =
      [] :=
  C5_unstack_all_or_nothing [] "feat/delete-line" []
    [[⟨"f", "@@ -1,3 +1,2 @@", [" a", "-b", " c"], 1, 3, 1, 2⟩]]
    0 [] (.contextBeyondEnd 1 0) (by decide) (by decide) (by decide)
    (by decide)

/-- Claim C6: hunk headers with omitted lengths parse with the omitted
side defaulting to 1 (not 0); the both-present, old-omitted,
new-omitted and both-omitted forms all parse through
`parse_unified_diff`. -/
theorem C6_omitted_hunk_lengths :
    parse_unified_diff "--- a/f\n+++ b/f\n@@ -1 +1 @@" =
      ([("f", [⟨"f", "@@ -1 +1 @@", [], 1, 1, 1, 1⟩])], [("f", false)]) ∧
    parse_unified_diff "--- a/f\n+++ b/f\n@@ -10 +20,8 @@" =
      ([("f", [⟨"f", "@@ -10 +20,8 @@", [], 10, 1, 20, 8⟩])],
       [("f", false)]) ∧
    parse_unified_diff "--- a/f\n+++ b/f\n@@ -3,2 +7 @@" =
      ([("f", [⟨"f", "@@ -3,2 +7 @@", [], 3, 2, 7, 1⟩])], [("f", false)]) ∧
    parse_unified_diff "--- a/f\n+++ b/f\n@@ -12,5 +34,6 @@" =
      ([("f", [⟨"f", "@@ -12,5 +34,6 @@", [], 12, 5, 34, 6⟩])],
       [("f", false)]) := by
  decide

/-- Claim C7: selection-address parsing and set semantics — every
comma-separated list of valid tokens (bare 4-digit integers or ranges
`AAAA-BBBB` with `A ≤ B`) parses to the denoted numbers; any invalid
token (including a reversed range) raises a parse error; the parse error
reaches the caller of `apply_changes` before `apply_one_file` can run;
and the patcher's output depends on the selection only through
membership, so duplicates, overlaps and permutations are harmless. -/
theorem C7_address_syntax_and_set_semantics :
    (∀ s : String,
      (∀ tok ∈ (splitCommaList s.data).map String.mk,
        validTok (String.mk (trimChars tok.data)) = true) →
      parse_number_tokens s = .ok
        ((((splitCommaList s.data).map String.mk).map
          (fun tok => denoteTok (String.mk (trimChars tok.data)))).flatten))
    ∧
    (∀ (s tok : String),
      tok ∈ (splitCommaList s.data).map String.mk →
      validTok (String.mk (trimChars tok.data)) = false →
      ∃ e, parse_number_tokens s = .error e) ∧
    (∀ (old_lines : List String) (hunks : List HunkRaw) (w1 w2 : List Nat),
      (∀ k, k ∈ w1 ↔ k ∈ w2) →
      apply_selected_changes_to_old old_lines hunks w1 =
        apply_selected_changes_to_old old_lines hunks w2) ∧
    (∀ (old_lines : List String) (hunks : List HunkRaw) (w1 w2 : List Nat),
      List.Perm w1 w2 →
      apply_selected_changes_to_old old_lines hunks w1 =
        apply_selected_changes_to_old old_lines hunks w2) ∧
    (∀ (path numbers diff_text : String) (old_lines : List String)
        (had_trailing_nl : Bool) (err : String),
      parse_number_tokens numbers = .error err →
      apply_changes path numbers diff_text old_lines had_trailing_nl =
        .error err) := by
  refine ⟨?_, ?_, ?_, ?_, ?_⟩
  · intro s hv
    rw [parse_number_tokens]
    exact parseTokensGo_ok _ hv
  · intro s tok hm hbad
    rw [parse_number_tokens]
    exact parseTokensGo_err _ tok hm hbad
  · intro old hunks w1 w2 hw
    exact apply_selected_mem_ext old hunks w1 w2 (fun k _ _ => hw k)
  · intro old hunks w1 w2 hp
    exact apply_selected_mem_ext old hunks w1 w2
      (fun k _ _ => hp.mem_iff)
  · intro path numbers diff_text old_lines had_trailing_nl err hp
    rw [apply_changes, hp]

/-- Witness for C7: a valid mixed token string parses to its denoted
numbers; a reversed range errors; a permuted selection gives the same
patcher output; a parse error reaches `apply_changes` unchanged. -/
theorem C7_address_syntax_witness :
    parse_number_tokens "0001,0003-0005" = .ok [1, 3, 4, 5] ∧
    (∃ e, parse_number_tokens "0005-0003" = .error e) ∧
    apply_selected_changes_to_old ["ctx", "del"]
        [⟨"f", "h", [" ctx", "-del", "+add"], 1, 2, 1, 2⟩] [2, 1, 1] =
      apply_selected_changes_to_old ["ctx", "del"]
        [⟨"f", "h", [" ctx", "-del", "+add"], 1, 2, 1, 2⟩] [1, 2, 1] ∧
    apply_changes "f" "12" "" [] false = .error "invalid token: 12" :=
  ⟨((C7_address_syntax_and_set_semantics).1 "0001,0003-0005"
      (by decide)).trans (by decide),
   (C7_address_syntax_and_set_semantics).2.1 "0005-0003" "0005-0003"
     (by decide) (by decide),
   (C7_address_syntax_and_set_semantics).2.2.2.1 ["ctx", "del"]
     [⟨"f", "h", [" ctx", "-del", "+add"], 1, 2, 1, 2⟩] [2, 1, 1]
     [1, 2, 1] (by decide),
   (C7_address_syntax_and_set_semantics).2.2.2.2 "f" "12" "" [] false
     "invalid token: 12" (by decide)⟩

/-- Claim C8: for a path flagged binary in the parsed diff,
`apply_one_file` never touches the index and never reaches the patcher
(the outcome is the same for every index content): it applies nothing
and reports every requested identifier as skipped with reason binary. -/
theorem C8_binary_skip (path : String) (want_numbers : List Nat)
    (diff_text : String) (old_lines : List String) (had_trailing_nl : Bool)
    (hbin : lookupD (parse_unified_diff diff_text).2 path false = true) :
    apply_one_file path want_numbers diff_text old_lines had_trailing_nl =
      ⟨[], (sortedSet want_numbers).map (fun n => (path, n, "binary")),
        none⟩ ∧
    (∀ k, k ∈ sortedSet want_numbers ↔ k ∈ want_numbers) := by
  refine ⟨?_, fun k => mem_sortedSet⟩
  simp only [apply_one_file, hbin, if_true]

/-- Witness for C8 on a binary-file diff line. -/
theorem C8_binary_skip_witness :
    apply_one_file "img.png" [2, 1]
        "Binary files a/img.png and b/img.png differ" ["x"] true =
      ⟨[], [("img.png", 1, "binary"), ("img.png", 2, "binary")], none⟩ :=
  ((C8_binary_skip "img.png" [2, 1]
      "Binary files a/img.png and b/img.png differ" ["x"] true
      (by decide)).1).trans (by decide)

/-- Claim C9 counterexample: the separator is emitted between two
adjacent hunks as well (the second hunk starts exactly where the first
ends, `old_start 2 = 1 + 1`, yet `"        ..."` appears between
them). -/
theorem C9_separator_counterexample :
    (⟨"f", "@@ -2,1 +1,0 @@", ["-b"], 2, 1, 1, 0⟩ : HunkRaw).old_start =
      (⟨"f", "@@ -1,1 +1,0 @@", ["-a"], 1, 1, 1, 0⟩ : HunkRaw).old_start +
        (⟨"f", "@@ -1,1 +1,0 @@", ["-a"], 1, 1, 1, 0⟩ : HunkRaw).old_lines
    ∧
    flat_file_lines_with_numbers
        [⟨"f", "@@ -1,1 +1,0 @@", ["-a"], 1, 1, 1, 0⟩,
         ⟨"f", "@@ -2,1 +1,0 @@", ["-b"], 2, 1, 1, 0⟩] =
      some ["0001: - a", "        ...", "0002: - b"] := by
  decide

/-- Claim C9 (amended): in the flattened view, context lines are
unnumbered and indented, added/removed lines are prefixed with their
zero-padded 4-digit identifier starting at 0001 per file, and the
separator token is inserted between every two consecutive hunks,
adjacent or not (`flatRef` renders exactly this). -/
theorem C9_flat_view_amended (hunks : List HunkRaw)
    (hne : ∀ h ∈ hunks, ∀ ln ∈ h.all_lines, ln ≠ "") :
    flat_file_lines_with_numbers hunks = some (flatRef hunks) := by
  rw [flat_file_lines_with_numbers, flatRef]
  exact flatGo_true_eq (sortHunks hunks) 1
    (fun h hh => hne h ((sortHunks_perm hunks).mem_iff.1 hh))

/-- Witness for the amended C9 on two hunks. -/
theorem C9_flat_view_amended_witness :
    flat_file_lines_with_numbers
        [⟨"f", "h1", [" ctx", "-del", "+add"], 1, 2, 1, 2⟩,
         ⟨"f", "h2", ["+x"], 5, 0, 6, 1⟩] =
      some (flatRef
        [⟨"f", "h1", [" ctx", "-del", "+add"], 1, 2, 1, 2⟩,
         ⟨"f", "h2", ["+x"], 5, 0, 6, 1⟩]) :=
  C9_flat_view_amended
    [⟨"f", "h1", [" ctx", "-del", "+add"], 1, 2, 1, 2⟩,
     ⟨"f", "h2", ["+x"], 5, 0, 6, 1⟩] (by decide)

/-- Claim C10: selecting a change identifier that does not exist in the
current diff snapshot is a silent no-op — the patcher's result on any
selection equals its result on the selection intersected with
`{1, …, totalChanges}`; identifiers outside that range never cause an
error or alter the output. -/
theorem C10_unknown_ids_noop (old_lines : List String)
    (hunks : List HunkRaw) (S : List Nat) :
    apply_selected_changes_to_old old_lines hunks S =
      apply_selected_changes_to_old old_lines hunks
        (S.filter (fun k => decide (1 ≤ k) &&
          decide (k ≤ totalChanges hunks))) := by
  apply apply_selected_mem_ext
  intro k h1 h2
  simp [List.mem_filter, h1, h2]

end GitLineStage
